import Mathlib

/-!
Verification development for the noveldrive content-extraction engine
(`src/lib/scraper.ts` and the HTTP route that invokes it).

Strings are modelled as `List Char` (the JavaScript string operations used by
the scraper act on code units; none of the operations modelled here splits
surrogate pairs, so a character-list model is faithful).  JavaScript regular
expressions are embedded as explicit recursive scanners with the same
leftmost-match semantics.  The cheerio DOM is modelled as a small node tree
supporting exactly the selector forms the scraper uses (tag, id, class,
attribute-equality), and the external fetch / next-link-heuristic / OpenCC
conversion capabilities are abstracted as an environment record, mirroring the
spec's external-interface boundary.
-/

namespace Noveldrive

/-! ### JavaScript whitespace and basic string helpers -/

/-- The character set trimmed by JavaScript `String.prototype.trim`:
ECMAScript WhiteSpace (TAB, VT, FF, SP, NBSP, ZWNBSP and the Unicode
Space_Separator category) together with LineTerminator (LF, CR, LS, PS). -/
def isJsWs (c : Char) : Bool :=
  c.val = 0x20 ∨ c.val = 0x09 ∨ c.val = 0x0A ∨ c.val = 0x0D ∨
  c.val = 0x0B ∨ c.val = 0x0C ∨ c.val = 0xA0 ∨ c.val = 0xFEFF ∨
  c.val = 0x1680 ∨ (0x2000 ≤ c.val ∧ c.val ≤ 0x200A) ∨
  c.val = 0x202F ∨ c.val = 0x205F ∨ c.val = 0x3000 ∨ c.val = 0x2028 ∨ c.val = 0x2029

/-- Characters collapsed by the scraper's `/[ \t]+/g` replacement. -/
def isSpaceTab (c : Char) : Bool := c = ' ' ∨ c = '\t'

/-- Helper for `collapseSp`: the flag records whether the previous character
was part of a space/tab run (in which case further run characters are
dropped). -/
def collapseSpAux : Bool → List Char → List Char
  | _, [] => []
  | inRun, c :: rest =>
    if isSpaceTab c then
      if inRun then collapseSpAux true rest
      else ' ' :: collapseSpAux true rest
    else c :: collapseSpAux false rest

/-- `line.replace(/[ \t]+/g, " ")`: collapse every run of spaces/tabs to a
single space. -/
def collapseSp (l : List Char) : List Char := collapseSpAux false l

/-- Left trim of JavaScript whitespace. -/
def ltrim (s : List Char) : List Char := s.dropWhile isJsWs

/-- Right trim of JavaScript whitespace. -/
def rtrim (s : List Char) : List Char := (ltrim s.reverse).reverse

/-- JavaScript `s.trim()`. -/
def jsTrim (s : List Char) : List Char := rtrim (ltrim s)

/-- `content.replace(/\r\n/g, "\n").replace(/\r/g, "\n")`: every CRLF pair and
every remaining CR becomes a single LF. -/
def normNewlines : List Char → List Char
  | [] => []
  | '\r' :: '\n' :: rest => '\n' :: normNewlines rest
  | '\r' :: rest => '\n' :: normNewlines rest
  | c :: rest => c :: normNewlines rest

/-- One line of the clean-up pass: collapse space/tab runs, then trim
(`line.replace(/[ \t]+/g, " ").trim()`). -/
def cleanLine (l : List Char) : List Char := jsTrim (collapseSp l)

/-- The rejoin loop of `cleanContent` (scraper.ts lines 100-122), with the
accumulated `result` string and the `prevWasEmpty` flag threaded exactly as in
the source. -/
def rejoinAux : List (List Char) → List Char → Bool → List Char
  | [], result, _ => result
  | line :: rest, result, prevWasEmpty =>
    if line = [] then
      if ¬ prevWasEmpty ∧ result ≠ [] then
        rejoinAux rest (result ++ ['\n', '\n']) true
      else
        rejoinAux rest result true
    else
      let result' := if result ≠ [] ∧ ¬ prevWasEmpty
        then result ++ '\n' :: line else result ++ line
      rejoinAux rest result' false

/-- `result.replace(/\n{3,}/g, "\n\n")`, written with an explicit counter for
the current run of newlines: a maximal run of `k ≥ 3` newlines is emitted as
exactly two, shorter runs are kept. -/
def collapseNlAux : Nat → List Char → List Char
  | k, [] => List.replicate (min k 2) '\n'
  | k, c :: rest =>
    if c = '\n' then collapseNlAux (k + 1) rest
    else List.replicate (min k 2) '\n' ++ c :: collapseNlAux 0 rest

/-- `text.replace(/\n{3,}/g, "\n\n")`. -/
def collapseNl (s : List Char) : List Char := collapseNlAux 0 s

/-- `cleanContent` (scraper.ts lines 89-129): normalize line breaks, clean each
line, rejoin with paragraph structure, collapse 3+ newline runs, final trim. -/
def cleanContent (content : List Char) : List Char :=
  let lines := (normNewlines content).splitOn '\n'
  let processedLines := lines.map cleanLine
  jsTrim (collapseNl (rejoinAux processedLines [] false))

example : cleanContent "A\n\n\nB".toList = "A\n\nB".toList := by decide
example : cleanContent "  A   B  ".toList = "A B".toList := by decide
example : cleanContent "".toList = [] := by decide
example : cleanContent " x \r\n\r\n y\t z ".toList = "x\n\ny z".toList := by decide

/-! ### Generic list lemmas used by the idempotence proof -/

theorem dropWhile_append' (p : Char → Bool) (x y : List Char) :
    (x ++ y).dropWhile p =
      if x.dropWhile p = [] then y.dropWhile p else x.dropWhile p ++ y := by
  induction x with
  | nil => simp
  | cons c t ih =>
    by_cases h : p c
    · simpa [List.dropWhile_cons, h] using ih
    · simp [List.dropWhile_cons, h]

theorem dropWhile_dropWhile (p : Char → Bool) (x : List Char) :
    (x.dropWhile p).dropWhile p = x.dropWhile p := by
  induction x with
  | nil => simp
  | cons c t ih =>
    by_cases h : p c
    · simpa [List.dropWhile_cons, h] using ih
    · simp [List.dropWhile_cons, h]

theorem head?_dropWhile_not (p : Char → Bool) (x : List Char) (c : Char)
    (h : (x.dropWhile p).head? = some c) : p c = false := by
  induction x with
  | nil => simp at h
  | cons a t ih =>
    by_cases hp : p a
    · rw [List.dropWhile_cons, if_pos hp] at h
      exact ih h
    · rw [List.dropWhile_cons, if_neg hp] at h
      simp at h
      exact h ▸ Bool.eq_false_iff.mpr hp

theorem head?_of_pref {l m : List Char} (h : l <+: m) {c : Char}
    (hc : l.head? = some c) : m.head? = some c := by
  obtain ⟨t, rfl⟩ := h
  cases l with
  | nil => simp at hc
  | cons a l' => simpa using hc

/-! ### Trimming lemmas -/

theorem rtrim_eq_reverse (s : List Char) :
    rtrim s = (s.reverse.dropWhile isJsWs).reverse := rfl

theorem ltrim_prefix_of_rtrim (s : List Char) : rtrim s <+: s := by
  rw [rtrim_eq_reverse]
  have h := List.dropWhile_suffix (l := s.reverse) isJsWs
  have := List.reverse_prefix.mpr h
  simpa using this

theorem jsTrim_infix (s : List Char) : jsTrim s <:+: s := by
  have h1 : jsTrim s <+: ltrim s := ltrim_prefix_of_rtrim (ltrim s)
  have h2 : ltrim s <:+ s := List.dropWhile_suffix isJsWs
  exact h1.isInfix.trans h2.isInfix

theorem rtrim_idem (s : List Char) : rtrim (rtrim s) = rtrim s := by
  simp [rtrim_eq_reverse, dropWhile_dropWhile]

theorem ltrim_eq_self_of_head? (s : List Char)
    (h : ∀ c, s.head? = some c → isJsWs c = false) : ltrim s = s := by
  cases s with
  | nil => rfl
  | cons c t =>
    have := h c rfl
    simp [ltrim, List.dropWhile_cons, this]

theorem head?_ltrim_not (s : List Char) (c : Char)
    (h : (ltrim s).head? = some c) : isJsWs c = false :=
  head?_dropWhile_not isJsWs s c h

theorem head?_jsTrim_not (s : List Char) (c : Char)
    (h : (jsTrim s).head? = some c) : isJsWs c = false := by
  exact head?_ltrim_not s c (head?_of_pref (ltrim_prefix_of_rtrim (ltrim s)) h)

theorem ltrim_jsTrim (s : List Char) : ltrim (jsTrim s) = jsTrim s :=
  ltrim_eq_self_of_head? _ (head?_jsTrim_not s)

theorem rtrim_jsTrim (s : List Char) : rtrim (jsTrim s) = jsTrim s := rtrim_idem _

theorem jsTrim_idem (s : List Char) : jsTrim (jsTrim s) = jsTrim s := by
  unfold jsTrim
  rw [show ltrim (rtrim (ltrim s)) = ltrim (jsTrim s) from rfl, ltrim_jsTrim]
  exact rtrim_jsTrim s

/-- `rtrim` over an append: if the right part trims away completely the left
part is trimmed, otherwise the left part is untouched. -/
theorem rtrim_append (a b : List Char) :
    rtrim (a ++ b) = if rtrim b = [] then rtrim a else a ++ rtrim b := by
  by_cases h : rtrim b = []
  · have hb : b.reverse.dropWhile isJsWs = [] := by
      have := congrArg List.reverse h
      simpa [rtrim_eq_reverse] using this
    simp [rtrim_eq_reverse, dropWhile_append', hb, h]
  · have hb : b.reverse.dropWhile isJsWs ≠ [] := by
      intro hcon
      exact h (by simp [rtrim_eq_reverse, hcon])
    simp [rtrim_eq_reverse, dropWhile_append', hb, h]

theorem rtrim_append_fix (a b : List Char) (ha : rtrim a = a) :
    rtrim (a ++ b) = a ++ rtrim b := by
  rw [rtrim_append]
  by_cases h : rtrim b = []
  · simp [h, ha]
  · simp [h]

theorem ltrim_append_fix (a b : List Char) (ha : a ≠ []) (hfix : ltrim a = a) :
    ltrim (a ++ b) = a ++ b := by
  unfold ltrim
  rw [dropWhile_append', show a.dropWhile isJsWs = a from hfix]
  simp [ha]

theorem rtrim_cons_fix (c : Char) (l : List Char) (hl : l ≠ [])
    (hfix : rtrim l = l) : rtrim (c :: l) = c :: l := by
  have hrev : l.reverse.dropWhile isJsWs = l.reverse := by
    have := congrArg List.reverse hfix
    simpa [rtrim_eq_reverse] using this
  have hne : l.reverse.dropWhile isJsWs ≠ [] := by
    rw [hrev]; simpa using hl
  rw [rtrim_eq_reverse, List.reverse_cons]
  have hstep : (l.reverse ++ [c]).dropWhile isJsWs = l.reverse ++ [c] := by
    rw [dropWhile_append', hrev, if_neg (by simpa using hl)]
  rw [hstep]
  simp

/-! ### Fixed points of the space-collapsing pass -/

theorem collapseSpAux_length (b : Bool) (l : List Char) :
    (collapseSpAux b l).length ≤ l.length := by
  induction l generalizing b with
  | nil => simp [collapseSpAux]
  | cons c t ih =>
    by_cases h : isSpaceTab c
    · cases b with
      | true =>
        simp only [collapseSpAux, h, if_pos, if_true]
        exact Nat.le_succ_of_le (ih true)
      | false =>
        simp only [collapseSpAux, h, if_pos, if_false]
        simpa using ih true
    · simp only [collapseSpAux, h, if_neg, if_false]
      simpa using ih false

theorem collapseSpAux_true_of_head (X : List Char)
    (h : ∀ c, X.head? = some c → isSpaceTab c = false) :
    collapseSpAux true X = collapseSpAux false X := by
  cases X with
  | nil => rfl
  | cons c t =>
    have := h c rfl
    simp [collapseSpAux, this]

theorem collapseSpAux_fix (l : List Char) :
    (∀ b, collapseSpAux false (collapseSpAux b l) = collapseSpAux b l) ∧
    (∀ c, (collapseSpAux true l).head? = some c → isSpaceTab c = false) := by
  induction l with
  | nil => exact ⟨fun b => rfl, fun c hc => by simp [collapseSpAux] at hc⟩
  | cons c t ih =>
    by_cases h : isSpaceTab c
    · refine ⟨?_, ?_⟩
      · intro b
        cases b with
        | true =>
          simpa [collapseSpAux, h] using ih.1 true
        | false =>
          have hX : collapseSpAux true (collapseSpAux true t) = collapseSpAux true t := by
            rw [collapseSpAux_true_of_head _ ih.2]
            exact ih.1 true
          have hsp2 : isSpaceTab ' ' = true := by decide
          simp [collapseSpAux, h, hsp2, hX]
      · intro d hd
        simp only [collapseSpAux, h, if_pos, if_true] at hd
        exact ih.2 d hd
    · refine ⟨?_, ?_⟩
      · intro b
        cases b <;> simp [collapseSpAux, h, ih.1 false]
      · intro d hd
        simp only [collapseSpAux, h, if_neg, if_false, List.head?_cons] at hd
        rw [← Option.some_inj.mp hd]
        exact Bool.eq_false_iff.mpr h

theorem collapseSp_collapseSp (l : List Char) :
    collapseSp (collapseSp l) = collapseSp l := (collapseSpAux_fix l).1 false

/-- The pairwise relation characterizing fixed points of `collapseSp`:
no two adjacent characters are both spaces/tabs. -/
def spOkRel (a b : Char) : Prop := ¬ (isSpaceTab a = true ∧ isSpaceTab b = true)

theorem collapseSp_fix_of_ok (z : List Char) (ht : ('\t' : Char) ∉ z)
    (hch : z.Chain' spOkRel) : collapseSp z = z := by
  induction z with
  | nil => rfl
  | cons c rest ih =>
    have htr : ('\t' : Char) ∉ rest := fun hm => ht (List.mem_cons_of_mem _ hm)
    have hrest : collapseSpAux false rest = rest := ih htr hch.tail
    by_cases hsp : isSpaceTab c
    · have hc : c = ' ' := by
        rcases (by simpa [isSpaceTab] using hsp : c = ' ' ∨ c = '\t') with h | h
        · exact h
        · exact absurd (h ▸ List.mem_cons_self c rest) ht
      subst hc
      cases rest with
      | nil => rfl
      | cons d r =>
        have hlink : spOkRel ' ' d := (List.chain'_cons.mp hch).1
        have hd : isSpaceTab d = false := by
          by_cases hdd : isSpaceTab d
          · exact absurd ⟨hsp, hdd⟩ hlink
          · exact Bool.eq_false_iff.mpr hdd
        have h1 : collapseSpAux false (' ' :: d :: r) = ' ' :: collapseSpAux true (d :: r) := by
          simp [collapseSpAux, hsp]
        have h2 : collapseSpAux true (d :: r) = collapseSpAux false (d :: r) := by
          simp [collapseSpAux, hd]
        show collapseSpAux false (' ' :: d :: r) = ' ' :: d :: r
        rw [h1, h2, hrest]
    · show collapseSpAux false (c :: rest) = c :: rest
      simp [collapseSpAux, hsp, hrest]

theorem ok_of_collapseSp_fix (z : List Char) (h : collapseSp z = z) :
    ('\t' : Char) ∉ z ∧ z.Chain' spOkRel := by
  induction z with
  | nil => simp
  | cons c rest ih =>
    by_cases hsp : isSpaceTab c
    · have hz : collapseSpAux false (c :: rest) = ' ' :: collapseSpAux true rest := by
        simp [collapseSpAux, hsp]
      rw [show collapseSp (c :: rest) = collapseSpAux false (c :: rest) from rfl, hz] at h
      obtain ⟨hc, hX⟩ := List.cons_eq_cons.mp h
      subst hc
      cases rest with
      | nil => simp [isSpaceTab]
      | cons d r =>
        have hd : isSpaceTab d = false := by
          by_cases hdd : isSpaceTab d
          · exfalso
            have hlen : (collapseSpAux true (d :: r)).length ≤ r.length := by
              simpa [collapseSpAux, hdd] using collapseSpAux_length true r
            rw [hX] at hlen
            simp at hlen
          · exact Bool.eq_false_iff.mpr hdd
        have hhead : ∀ e, (d :: r).head? = some e → isSpaceTab e = false := by
          intro e he
          have hde : d = e := by simpa using he
          exact hde ▸ hd
        have hfix : collapseSpAux false (d :: r) = d :: r := by
          rw [← collapseSpAux_true_of_head (d :: r) hhead]
          exact hX
        obtain ⟨ht, hch⟩ := ih hfix
        refine ⟨?_, ?_⟩
        · intro hm
          rcases List.mem_cons.mp hm with h1 | h1
          · exact absurd h1.symm (by decide)
          · exact ht h1
        · exact List.chain'_cons.mpr ⟨fun hand => by simp [hd] at hand, hch⟩
    · have hz : collapseSpAux false (c :: rest) = c :: collapseSpAux false rest := by
        simp [collapseSpAux, hsp]
      rw [show collapseSp (c :: rest) = collapseSpAux false (c :: rest) from rfl, hz] at h
      obtain ⟨hc, hfix⟩ := List.cons_eq_cons.mp h
      obtain ⟨ht, hch⟩ := ih hfix
      have hct : c ≠ '\t' := fun hcc => hsp (by simp [isSpaceTab, hcc])
      refine ⟨?_, ?_⟩
      · intro hm
        rcases List.mem_cons.mp hm with h1 | h1
        · exact hct h1.symm
        · exact ht h1
      · cases rest with
        | nil => simp
        | cons d r =>
          exact List.chain'_cons.mpr ⟨fun hand => hsp (by simp [hand.1]), hch⟩

theorem collapseSp_jsTrim_fix (l : List Char) :
    collapseSp (jsTrim (collapseSp l)) = jsTrim (collapseSp l) := by
  obtain ⟨ht, hch⟩ := ok_of_collapseSp_fix (collapseSp l) (collapseSp_collapseSp l)
  have hinf := jsTrim_infix (collapseSp l)
  exact collapseSp_fix_of_ok _ (fun hm => ht (hinf.subset hm)) ( List.Chain'.infix hch hinf)

theorem cleanLine_idem (l : List Char) : cleanLine (cleanLine l) = cleanLine l := by
  show jsTrim (collapseSp (jsTrim (collapseSp l))) = jsTrim (collapseSp l)
  rw [collapseSp_jsTrim_fix l]
  exact jsTrim_idem _

/-! ### Structural form of the rejoin loop -/

/-- Structural companion of `rejoinAux` once the accumulator is nonempty:
what the loop appends after the current point, given the `prevWasEmpty`
flag. -/
def rejoinGo : Bool → List (List Char) → List Char
  | _, [] => []
  | prev, line :: rest =>
    if line = [] then
      if prev then rejoinGo true rest
      else '\n' :: '\n' :: rejoinGo true rest
    else
      if prev then line ++ rejoinGo false rest
      else '\n' :: (line ++ rejoinGo false rest)

/-- Structural companion of `rejoinAux` starting from an empty accumulator:
leading empty lines contribute nothing. -/
def rejoin : List (List Char) → List Char
  | [] => []
  | line :: rest => if line = [] then rejoin rest else line ++ rejoinGo false rest

theorem rejoinAux_acc (L : List (List Char)) :
    ∀ (acc : List Char) (prev : Bool), acc ≠ [] →
      rejoinAux L acc prev = acc ++ rejoinGo prev L := by
  induction L with
  | nil => intro acc prev _; simp [rejoinAux, rejoinGo]
  | cons line rest ih =>
    intro acc prev hacc
    by_cases hl : line = []
    · subst hl
      cases prev with
      | false =>
        have : rejoinAux ([] :: rest) acc false
            = rejoinAux rest (acc ++ ['\n', '\n']) true := by
          simp [rejoinAux, hacc]
        rw [this, ih _ true (by simp)]
        simp [rejoinGo]
      | true =>
        have : rejoinAux ([] :: rest) acc true = rejoinAux rest acc true := by
          simp [rejoinAux]
        rw [this, ih _ true hacc]
        simp [rejoinGo]
    · cases prev with
      | false =>
        have : rejoinAux (line :: rest) acc false
            = rejoinAux rest (acc ++ '\n' :: line) false := by
          simp [rejoinAux, hl, hacc]
        rw [this, ih _ false (by simp)]
        simp [rejoinGo, hl]
      | true =>
        have : rejoinAux (line :: rest) acc true
            = rejoinAux rest (acc ++ line) false := by
          simp [rejoinAux, hl]
        rw [this, ih _ false (by simp [hl, hacc])]
        simp [rejoinGo, hl]

theorem rejoinAux_nil (L : List (List Char)) :
    ∀ prev, rejoinAux L [] prev = rejoin L := by
  induction L with
  | nil => intro prev; rfl
  | cons line rest ih =>
    intro prev
    by_cases hl : line = []
    · subst hl
      have : rejoinAux ([] :: rest) [] prev = rejoinAux rest [] true := by
        simp [rejoinAux]
      rw [this, ih true]
      simp [rejoin]
    · have : rejoinAux (line :: rest) [] prev = rejoinAux rest line false := by
        simp [rejoinAux, hl]
      rw [this, rejoinAux_acc rest line false hl]
      simp [rejoin, hl]

/-! ### Canonical line lists -/

mutual
/-- Normal form of a line list after a nonempty line: runs of empty lines
collapse to a single empty marker, trailing empty lines disappear. -/
def squashGo : List (List Char) → List (List Char)
  | [] => []
  | line :: rest => if line = [] then squashEmp rest else line :: squashGo rest

/-- Normal form once at least one empty line has been seen since the last
nonempty line. -/
def squashEmp : List (List Char) → List (List Char)
  | [] => []
  | line :: rest => if line = [] then squashEmp rest else [] :: line :: squashGo rest
end

/-- Normal form of a whole line list: leading empty lines disappear. -/
def squash : List (List Char) → List (List Char)
  | [] => []
  | line :: rest => if line = [] then squash rest else line :: squashGo rest

/-- Rendering of the lines after the first: each one is preceded by a
newline. -/
def tailRender (N : List (List Char)) : List Char :=
  (N.map (fun n => '\n' :: n)).flatten

theorem tailRender_nil : tailRender [] = [] := rfl

theorem tailRender_cons (n : List Char) (N : List (List Char)) :
    tailRender (n :: N) = '\n' :: (n ++ tailRender N) := by
  simp [tailRender]

theorem intercalate_nl_cons (l : List Char) (N : List (List Char)) :
    List.intercalate ['\n'] (l :: N) = l ++ tailRender N := by
  induction N generalizing l with
  | nil => simp [List.intercalate, tailRender]
  | cons n N ih =>
    have h1 : List.intercalate ['\n'] (l :: n :: N)
        = l ++ '\n' :: List.intercalate ['\n'] (n :: N) := by
      simp [List.intercalate, List.intersperse]
    rw [h1, ih n, tailRender_cons]

theorem squashEmp_shape (R : List (List Char)) :
    squashEmp R = [] ∨ ∃ l N, squashEmp R = [] :: l :: N ∧ l ≠ [] := by
  induction R with
  | nil => exact Or.inl rfl
  | cons line rest ih =>
    by_cases hl : line = []
    · simpa [squashEmp, hl] using ih
    · exact Or.inr ⟨line, squashGo rest, by simp [squashEmp, hl], hl⟩

theorem squash_squash (R : List (List Char)) :
    squashGo (squashGo R) = squashGo R ∧ squashGo (squashEmp R) = squashEmp R := by
  induction R with
  | nil => exact ⟨rfl, rfl⟩
  | cons line rest ih =>
    by_cases hl : line = []
    · refine ⟨?_, ?_⟩ <;> simpa [squashGo, squashEmp, hl] using ih.2
    · constructor
      · simp [squashGo, hl, ih.1]
      · simp [squashEmp, squashGo, hl, ih.1]

theorem squash_idem (M : List (List Char)) : squash (squash M) = squash M := by
  induction M with
  | nil => rfl
  | cons line rest ih =>
    by_cases hl : line = []
    · simpa [squash, hl] using ih
    · simp [squash, hl, squashGo, (squash_squash rest).1]

theorem mem_squashGo_or (R : List (List Char)) :
    (∀ l ∈ squashGo R, l = [] ∨ l ∈ R) ∧ (∀ l ∈ squashEmp R, l = [] ∨ l ∈ R) := by
  induction R with
  | nil => simp [squashGo, squashEmp]
  | cons line rest ih =>
    by_cases hl : line = []
    · constructor
      · intro l hm
        rw [squashGo, if_pos hl] at hm
        rcases ih.2 l hm with h | h
        · exact Or.inl h
        · exact Or.inr (List.mem_cons_of_mem _ h)
      · intro l hm
        rw [squashEmp, if_pos hl] at hm
        rcases ih.2 l hm with h | h
        · exact Or.inl h
        · exact Or.inr (List.mem_cons_of_mem _ h)
    · constructor
      · intro l hm
        rw [squashGo, if_neg hl] at hm
        rcases List.mem_cons.mp hm with h | h
        · exact Or.inr (h ▸ List.mem_cons_self _ _)
        · rcases ih.1 l h with h2 | h2
          · exact Or.inl h2
          · exact Or.inr (List.mem_cons_of_mem _ h2)
      · intro l hm
        rw [squashEmp, if_neg hl] at hm
        rcases List.mem_cons.mp hm with h | h
        · exact Or.inl h
        · rcases List.mem_cons.mp h with h2 | h2
          · exact Or.inr (h2 ▸ List.mem_cons_self _ _)
          · rcases ih.1 l h2 with h3 | h3
            · exact Or.inl h3
            · exact Or.inr (List.mem_cons_of_mem _ h3)

theorem mem_squash_or (M : List (List Char)) :
    ∀ l ∈ squash M, l = [] ∨ l ∈ M := by
  induction M with
  | nil => simp [squash]
  | cons line rest ih =>
    by_cases hl : line = []
    · intro l hm
      rw [squash, if_pos hl] at hm
      rcases ih l hm with h | h
      · exact Or.inl h
      · exact Or.inr (List.mem_cons_of_mem _ h)
    · intro l hm
      rw [squash, if_neg hl] at hm
      rcases List.mem_cons.mp hm with h | h
      · exact Or.inr (h ▸ List.mem_cons_self _ _)
      · rcases (mem_squashGo_or rest).1 l h with h2 | h2
        · exact Or.inl h2
        · exact Or.inr (List.mem_cons_of_mem _ h2)

/-! ### Fixed-line facts -/

theorem cleanLine_fix_rtrim {l : List Char} (hfix : cleanLine l = l) :
    rtrim l = l := by
  have h := rtrim_jsTrim (collapseSp l)
  rwa [show jsTrim (collapseSp l) = cleanLine l from rfl, hfix] at h

theorem cleanLine_fix_ltrim {l : List Char} (hfix : cleanLine l = l) :
    ltrim l = l := by
  have h := ltrim_jsTrim (collapseSp l)
  rwa [show jsTrim (collapseSp l) = cleanLine l from rfl, hfix] at h

theorem cleanLine_nil : cleanLine [] = [] := rfl

/-! ### Trimming the rejoined text -/

/-- Rendering of a `squashEmp` result seen from inside a pending paragraph
break: the leading empty marker and the newline before the first line have
already been emitted. -/
def renderQ : List (List Char) → List Char
  | [] => []
  | [_] => []
  | _ :: l :: N => l ++ tailRender N

theorem rtrim_rejoinGo (R : List (List Char)) :
    (∀ l ∈ R, cleanLine l = l) →
    rtrim (rejoinGo false R) = tailRender (squashGo R) ∧
    rtrim (rejoinGo true R) = renderQ (squashEmp R) := by
  induction R with
  | nil => intro _; constructor <;> rfl
  | cons line rest ih =>
    intro hR
    have hrest : ∀ l ∈ rest, cleanLine l = l :=
      fun l hm => hR l (List.mem_cons_of_mem _ hm)
    obtain ⟨ihF, ihT⟩ := ih hrest
    by_cases hl : line = []
    · subst hl
      constructor
      · have hgo : rejoinGo false ([] :: rest) = ['\n', '\n'] ++ rejoinGo true rest := by
          simp [rejoinGo]
        have hsq : squashGo ([] :: rest) = squashEmp rest := by simp [squashGo]
        rw [hgo, hsq, rtrim_append]
        rcases squashEmp_shape rest with hsh | ⟨l, N, hsh, hlne⟩
        · rw [hsh] at ihT
          rw [ihT]
          simp [tailRender, hsh]
          rfl
        · rw [hsh] at ihT ⊢
          have hlren : renderQ ([] :: l :: N) = l ++ tailRender N := rfl
          rw [hlren] at ihT
          have hne : rtrim (rejoinGo true rest) ≠ [] := by
            rw [ihT]
            simp [hlne]
          rw [if_neg hne, ihT, tailRender_cons, tailRender_cons]
          simp
      · have hgo : rejoinGo true ([] :: rest) = rejoinGo true rest := by simp [rejoinGo]
        have hsq : squashEmp ([] :: rest) = squashEmp rest := by simp [squashEmp]
        rw [hgo, hsq]
        exact ihT
    · have hfixl : cleanLine line = line := hR line (List.mem_cons_self _ _)
      have hrt : rtrim line = line := cleanLine_fix_rtrim hfixl
      constructor
      · have hgo : rejoinGo false (line :: rest)
            = ('\n' :: line) ++ rejoinGo false rest := by
          simp [rejoinGo, hl]
        have hsq : squashGo (line :: rest) = line :: squashGo rest := by
          simp [squashGo, hl]
        rw [hgo, hsq, rtrim_append_fix _ _ (rtrim_cons_fix '\n' line hl hrt), ihF,
          tailRender_cons]
        simp
      · have hgo : rejoinGo true (line :: rest) = line ++ rejoinGo false rest := by
          simp [rejoinGo, hl]
        have hsq : squashEmp (line :: rest) = [] :: line :: squashGo rest := by
          simp [squashEmp, hl]
        rw [hgo, hsq, rtrim_append_fix _ _ hrt, ihF]
        rfl

theorem jsTrim_rejoin (M : List (List Char)) :
    (∀ l ∈ M, cleanLine l = l) →
    jsTrim (rejoin M) = List.intercalate ['\n'] (squash M) := by
  induction M with
  | nil => intro _; rfl
  | cons line rest ih =>
    intro hM
    have hrest : ∀ l ∈ rest, cleanLine l = l :=
      fun l hm => hM l (List.mem_cons_of_mem _ hm)
    by_cases hl : line = []
    · subst hl
      have h1 : rejoin ([] :: rest) = rejoin rest := by simp [rejoin]
      have h2 : squash ([] :: rest) = squash rest := by simp [squash]
      rw [h1, h2]
      exact ih hrest
    · have hfixl : cleanLine line = line := hM line (List.mem_cons_self _ _)
      have h1 : rejoin (line :: rest) = line ++ rejoinGo false rest := by
        simp [rejoin, hl]
      have h2 : squash (line :: rest) = line :: squashGo rest := by
        simp [squash, hl]
      rw [h1, h2, intercalate_nl_cons]
      unfold jsTrim
      rw [ltrim_append_fix line _ hl (cleanLine_fix_ltrim hfixl),
        rtrim_append_fix _ _ (cleanLine_fix_rtrim hfixl),
        (rtrim_rejoinGo rest hrest).1]

/-! ### The newline-collapsing pass is inert on rejoined text -/

theorem collapseNlAux_line (l : List Char) :
    ∀ X, l ≠ [] → ('\n' : Char) ∉ l → ∀ k, k ≤ 2 →
      collapseNlAux k (l ++ X) = List.replicate k '\n' ++ l ++ collapseNlAux 0 X := by
  induction l with
  | nil => intro X h; exact absurd rfl h
  | cons c l' ih =>
    intro X _ hnl k hk
    have hc : c ≠ '\n' := fun hcc => hnl (hcc ▸ List.mem_cons_self _ _)
    have hmin : min k 2 = k := Nat.min_eq_left hk
    have hstep : collapseNlAux k (c :: (l' ++ X))
        = List.replicate (min k 2) '\n' ++ c :: collapseNlAux 0 (l' ++ X) := by
      simp [collapseNlAux, hc]
    rw [List.cons_append, hstep, hmin]
    by_cases hl' : l' = []
    · subst hl'
      simp
    · rw [ih X hl' (fun hm => hnl (List.mem_cons_of_mem _ hm)) 0 (by omega)]
      simp

theorem collapseNl_rejoinGo (R : List (List Char)) :
    (∀ l ∈ R, ('\n' : Char) ∉ l) →
    (∀ k, k ≤ 2 →
      collapseNlAux k (rejoinGo true R) = List.replicate k '\n' ++ rejoinGo true R) ∧
    collapseNlAux 0 (rejoinGo false R) = rejoinGo false R := by
  induction R with
  | nil =>
    intro _
    constructor
    · intro k hk
      simp [rejoinGo, collapseNlAux, Nat.min_eq_left hk]
    · rfl
  | cons line rest ih =>
    intro hR
    have hrest : ∀ l ∈ rest, ('\n' : Char) ∉ l :=
      fun l hm => hR l (List.mem_cons_of_mem _ hm)
    obtain ⟨ihT, ihF⟩ := ih hrest
    by_cases hl : line = []
    · subst hl
      constructor
      · intro k hk
        have hgo : rejoinGo true ([] :: rest) = rejoinGo true rest := by simp [rejoinGo]
        rw [hgo]
        exact ihT k hk
      · have hgo : rejoinGo false ([] :: rest) = '\n' :: '\n' :: rejoinGo true rest := by
          simp [rejoinGo]
        rw [hgo]
        have h1 : collapseNlAux 0 ('\n' :: '\n' :: rejoinGo true rest)
            = collapseNlAux 2 (rejoinGo true rest) := by
          simp [collapseNlAux]
        rw [h1, ihT 2 (by omega)]
        rfl
    · have hnll : ('\n' : Char) ∉ line := hR line (List.mem_cons_self _ _)
      constructor
      · intro k hk
        have hgo : rejoinGo true (line :: rest) = line ++ rejoinGo false rest := by
          simp [rejoinGo, hl]
        rw [hgo, collapseNlAux_line line _ hl hnll k hk, ihF]
        simp
      · have hgo : rejoinGo false (line :: rest)
            = '\n' :: (line ++ rejoinGo false rest) := by
          simp [rejoinGo, hl]
        rw [hgo]
        have h1 : collapseNlAux 0 ('\n' :: (line ++ rejoinGo false rest))
            = collapseNlAux 1 (line ++ rejoinGo false rest) := by
          simp [collapseNlAux]
        rw [h1, collapseNlAux_line line _ hl hnll 1 (by omega), ihF]
        rfl

theorem collapseNl_rejoin (M : List (List Char)) :
    (∀ l ∈ M, ('\n' : Char) ∉ l) → collapseNl (rejoin M) = rejoin M := by
  induction M with
  | nil => intro _; rfl
  | cons line rest ih =>
    intro hM
    have hrest : ∀ l ∈ rest, ('\n' : Char) ∉ l :=
      fun l hm => hM l (List.mem_cons_of_mem _ hm)
    by_cases hl : line = []
    · subst hl
      have h1 : rejoin ([] :: rest) = rejoin rest := by simp [rejoin]
      rw [h1]
      exact ih hrest
    · have hnll : ('\n' : Char) ∉ line := hM line (List.mem_cons_self _ _)
      have h1 : rejoin (line :: rest) = line ++ rejoinGo false rest := by
        simp [rejoin, hl]
      rw [h1]
      unfold collapseNl
      rw [collapseNlAux_line line _ hl hnll 0 (by omega),
        (collapseNl_rejoinGo rest hrest).2]
      simp

/-- The rejoin-collapse-trim pipeline computes the canonical rendering of the
squashed line list. -/
theorem cleanContent_pipe (M : List (List Char))
    (hM : ∀ l ∈ M, cleanLine l = l) (hnl : ∀ l ∈ M, ('\n' : Char) ∉ l) :
    jsTrim (collapseNl (rejoinAux M [] false)) = List.intercalate ['\n'] (squash M) := by
  rw [rejoinAux_nil M false, collapseNl_rejoin M hnl]
  exact jsTrim_rejoin M hM

/-! ### Character-level facts about the pipeline stages -/

theorem normNewlines_no_cr (s : List Char) : ('\r' : Char) ∉ normNewlines s := by
  induction s using normNewlines.induct with
  | case1 => simp [normNewlines]
  | case2 rest ih => simpa [normNewlines] using ih
  | case3 rest h ih => simpa [normNewlines] using ih
  | case4 c rest h1 h2 ih =>
    simp [normNewlines]
    exact ⟨fun hcc => h2 hcc.symm, ih⟩

theorem normNewlines_id (s : List Char) (h : ('\r' : Char) ∉ s) :
    normNewlines s = s := by
  induction s using normNewlines.induct with
  | case1 => rfl
  | case2 rest ih => simp at h
  | case3 rest hg ih => simp at h
  | case4 c rest h1 h2 ih =>
    have hrest : ('\r' : Char) ∉ rest := fun hm => h (List.mem_cons_of_mem _ hm)
    simp [normNewlines, ih hrest]

theorem splitOnP_not_mem (p : Char → Bool) (s : List Char) :
    ∀ l ∈ s.splitOnP p, ∀ x ∈ l, p x = false := by
  induction s with
  | nil =>
    intro l hl x hx
    simp [List.splitOnP_nil] at hl
    subst hl
    simp at hx
  | cons c t ih =>
    intro l hl x hx
    rw [List.splitOnP_cons] at hl
    by_cases h : p c
    · rw [if_pos h] at hl
      rcases List.mem_cons.mp hl with h1 | h1
      · subst h1; simp at hx
      · exact ih l h1 x hx
    · rw [if_neg h] at hl
      cases ht : t.splitOnP p with
      | nil => exact absurd ht (List.splitOnP_ne_nil p t)
      | cons hd tl =>
        rw [ht] at hl
        rw [List.modifyHead_cons] at hl
        rcases List.mem_cons.mp hl with h1 | h1
        · subst h1
          rcases List.mem_cons.mp hx with h2 | h2
          · subst h2; exact Bool.eq_false_iff.mpr h
          · exact ih hd (ht ▸ List.mem_cons_self hd tl) x h2
        · exact ih l (ht ▸ List.mem_cons_of_mem hd h1) x hx

theorem splitOn_not_mem (c : Char) (s : List Char) :
    ∀ l ∈ s.splitOn c, c ∉ l := by
  intro l hl hc
  have := splitOnP_not_mem (· == c) s l hl c hc
  simp at this

theorem mem_collapseSpAux (b : Bool) (l : List Char) (c : Char)
    (h : c ∈ collapseSpAux b l) : c ∈ l ∨ c = ' ' := by
  induction l generalizing b with
  | nil => simp [collapseSpAux] at h
  | cons d t ih =>
    by_cases hd : isSpaceTab d
    · cases b with
      | true =>
        rw [show collapseSpAux true (d :: t) = collapseSpAux true t by
          simp [collapseSpAux, hd]] at h
        rcases ih true h with h1 | h1
        · exact Or.inl (List.mem_cons_of_mem _ h1)
        · exact Or.inr h1
      | false =>
        rw [show collapseSpAux false (d :: t) = ' ' :: collapseSpAux true t by
          simp [collapseSpAux, hd]] at h
        rcases List.mem_cons.mp h with h1 | h1
        · exact Or.inr h1
        · rcases ih true h1 with h2 | h2
          · exact Or.inl (List.mem_cons_of_mem _ h2)
          · exact Or.inr h2
    · rw [show collapseSpAux b (d :: t) = d :: collapseSpAux false t by
        cases b <;> simp [collapseSpAux, hd]] at h
      rcases List.mem_cons.mp h with h1 | h1
      · exact Or.inl (h1 ▸ List.mem_cons_self _ _)
      · rcases ih false h1 with h2 | h2
        · exact Or.inl (List.mem_cons_of_mem _ h2)
        · exact Or.inr h2

theorem mem_jsTrim (s : List Char) (c : Char) (h : c ∈ jsTrim s) : c ∈ s := by
  obtain ⟨a, b, hab⟩ := jsTrim_infix s
  rw [← hab, List.append_assoc]
  exact List.mem_append_right a (List.mem_append_left b h)

theorem mem_cleanLine (l : List Char) (c : Char) (h : c ∈ cleanLine l) :
    c ∈ l ∨ c = ' ' :=
  mem_collapseSpAux false l c (mem_jsTrim (collapseSp l) c h)

theorem mem_tailRender_of_mem (N : List (List Char)) (l : List Char) (c : Char)
    (hl : l ∈ N) (hc : c ∈ l) : c ∈ tailRender N := by
  simp only [tailRender, List.mem_flatten, List.mem_map]
  exact ⟨'\n' :: l, ⟨l, hl, rfl⟩, List.mem_cons_of_mem _ hc⟩

theorem mem_intercalate_of_mem (L : List (List Char)) (l : List Char)
    (hl : l ∈ L) (c : Char) (hc : c ∈ l) : c ∈ List.intercalate ['\n'] L := by
  cases L with
  | nil => simp at hl
  | cons a L' =>
    rw [intercalate_nl_cons]
    rcases List.mem_cons.mp hl with h1 | h1
    · exact List.mem_append_left _ (h1 ▸ hc)
    · exact List.mem_append_right _ (mem_tailRender_of_mem L' l c h1 hc)

theorem mem_intercalate_cases (L : List (List Char)) (c : Char)
    (h : c ∈ List.intercalate ['\n'] L) : (∃ l ∈ L, c ∈ l) ∨ c = '\n' := by
  induction L with
  | nil => simp [List.intercalate] at h
  | cons a L' ih =>
    rw [intercalate_nl_cons] at h
    rcases List.mem_append.mp h with h1 | h1
    · exact Or.inl ⟨a, List.mem_cons_self _ _, h1⟩
    · simp only [tailRender, List.mem_flatten, List.mem_map] at h1
      obtain ⟨x, ⟨l, hl, rfl⟩, hcx⟩ := h1
      rcases List.mem_cons.mp hcx with h2 | h2
      · exact Or.inr h2
      · exact Or.inl ⟨l, List.mem_cons_of_mem _ hl, h2⟩

/-! ### The canonical form of `cleanContent` and idempotence -/

theorem cleanContent_canon (s : List Char) :
    cleanContent s
      = List.intercalate ['\n']
          (squash (((normNewlines s).splitOn '\n').map cleanLine)) := by
  show jsTrim (collapseNl (rejoinAux (((normNewlines s).splitOn '\n').map cleanLine)
      [] false)) = _
  apply cleanContent_pipe
  · intro l hm
    obtain ⟨l0, hl0, rfl⟩ := List.mem_map.mp hm
    exact cleanLine_idem l0
  · intro l hm hnl
    obtain ⟨l0, hl0, rfl⟩ := List.mem_map.mp hm
    rcases mem_cleanLine l0 '\n' hnl with h | h
    · exact splitOn_not_mem '\n' (normNewlines s) l0 hl0 h
    · exact absurd h (by decide)

theorem cleanContent_nil : cleanContent [] = [] := by decide

theorem cleanContent_fix_canon (s : List Char) :
    cleanContent (cleanContent s) = cleanContent s := by
  have hcanon := cleanContent_canon s
  set M := squash (((normNewlines s).splitOn '\n').map cleanLine) with hMdef
  have helem : ∀ l ∈ M, cleanLine l = l := by
    intro l hm
    rcases mem_squash_or _ l hm with h | h
    · subst h; exact cleanLine_nil
    · obtain ⟨l0, hl0, rfl⟩ := List.mem_map.mp h
      exact cleanLine_idem l0
  have hnlM : ∀ l ∈ M, ('\n' : Char) ∉ l := by
    intro l hm hnl
    rcases mem_squash_or _ l hm with h | h
    · subst h; simp at hnl
    · obtain ⟨l0, hl0, rfl⟩ := List.mem_map.mp h
      rcases mem_cleanLine l0 '\n' hnl with h2 | h2
      · exact splitOn_not_mem '\n' (normNewlines s) l0 hl0 h2
      · exact absurd h2 (by decide)
  have hcrM : ∀ l ∈ M, ('\r' : Char) ∉ l := by
    intro l hm hcr
    rcases mem_squash_or _ l hm with h | h
    · subst h; simp at hcr
    · obtain ⟨l0, hl0, rfl⟩ := List.mem_map.mp h
      rcases mem_cleanLine l0 '\r' hcr with h2 | h2
      · have hmem : ('\r' : Char) ∈ normNewlines s := by
          have := mem_intercalate_of_mem _ l0 hl0 '\r' h2
          rwa [List.intercalate_splitOn] at this
        exact normNewlines_no_cr s hmem
      · exact absurd h2 (by decide)
  rw [hcanon]
  cases hM : M with
  | nil =>
    have : List.intercalate ['\n'] ([] : List (List Char)) = [] := by
      simp [List.intercalate]
    rw [this, cleanContent_nil]
  | cons m Ms =>
    rw [← hM]
    have hcrI : ('\r' : Char) ∉ List.intercalate ['\n'] M := by
      intro hmem
      rcases mem_intercalate_cases M '\r' hmem with ⟨l, hl, hcl⟩ | hEq
      · exact hcrM l hl hcl
      · exact absurd hEq (by decide)
    show jsTrim (collapseNl (rejoinAux
        (((normNewlines (List.intercalate ['\n'] M)).splitOn '\n').map cleanLine)
        [] false)) = _
    rw [normNewlines_id _ hcrI,
      List.splitOn_intercalate M '\n' hnlM (hM ▸ List.cons_ne_nil m Ms)]
    have hmapid : M.map cleanLine = M := by
      conv_rhs => rw [← List.map_id M]
      exact List.map_congr_left helem
    rw [hmapid, cleanContent_pipe M helem hnlM]
    have hsq : squash M = M := by
      rw [hMdef]
      exact squash_idem _
    rw [hsq]

/-! ### Script classifier (scraper.ts lines 16-52) -/

/-- Character class of the regex `simplifiedChars` (scraper.ts line 18). -/
def simplifiedChars : List Char := "简体中文常见字符：这那个为会时说可以".toList

/-- Character class of the regex `traditionalChars` (scraper.ts line 20). -/
def traditionalChars : List Char := "繁體中文常見字符：這那個為會時說可以".toList

/-- Character class of the regex `simplifiedOnly` (scraper.ts line 31). -/
def simplifiedOnly : List Char := "简体".toList

/-- Character class of the regex `traditionalOnly` (scraper.ts line 37). -/
def traditionalOnly : List Char := "繁體".toList

/-- Character class of the regex `simplifiedPattern` (scraper.ts line 45). -/
def simplifiedPattern : List Char := "这为会说时个".toList

/-- Character class of the regex `traditionalPattern` (scraper.ts line 46). -/
def traditionalPattern : List Char := "這為會說時個".toList

/-- `(text.match(/[cls]/g) || []).length`: how many characters of `text` lie in
the character class `cls`. -/
def countClass (cls : List Char) (text : List Char) : Nat :=
  text.countP (fun c => cls.contains c)

/-- `regex.test(text)` for a character-class regex. -/
def testClass (cls : List Char) (text : List Char) : Bool :=
  text.any (fun c => cls.contains c)

/-- `isSimplifiedChinese` (scraper.ts lines 16-52): count comparison over the
broad marker classes, then the exclusive-character probes, then the
high-frequency variant-pair count comparison. -/
def isSimplifiedChinese (text : List Char) : Bool :=
  if countClass simplifiedChars text > countClass traditionalChars text then
    true
  else if testClass simplifiedOnly text then
    true
  else if testClass traditionalOnly text then
    false
  else
    countClass simplifiedPattern text > countClass traditionalPattern text

example : isSimplifiedChinese "这是一个简单的测试".toList = true := by decide
example : isSimplifiedChinese "這是一個繁體的測試".toList = false := by decide
example : isSimplifiedChinese "hello".toList = false := by decide

/-! ### A minimal DOM for the cheerio operations used by the scraper

The parsed page (`cheerio.load`) is modelled as a node tree.  Only the
selector forms the scraper actually uses are implemented: tag selectors,
`#id`, `.class`, and `meta[property="og:title"]`.  Selection order is document
pre-order, matching cheerio's `.first()`. -/

inductive Dom where
  | elem (tag : List Char) (attrs : List (List Char × List Char)) (children : List Dom)
  | text (s : List Char)

/-- First attribute with the given name. -/
def attrOf (attrs : List (List Char × List Char)) (name : List Char) :
    Option (List Char) :=
  match attrs.find? (fun p => p.1 == name) with
  | some p => some p.2
  | none => none

/-- HTML ASCII whitespace, used to split the `class` attribute. -/
def isHtmlWs (c : Char) : Bool :=
  c = ' ' ∨ c = '\t' ∨ c = '\n' ∨ c = '\r' ∨ c = '\u000C'

/-- The class names of a `class` attribute value. -/
def splitClasses (s : List Char) : List (List Char) :=
  (s.splitOnP isHtmlWs).filter (fun l => ¬ l.isEmpty)

/-- The selector forms used by the scraper. -/
inductive Sel where
  | byTag (t : List Char)
  | byId (i : List Char)
  | byClass (c : List Char)
  | byAttr (t : List Char) (name : List Char) (v : List Char)

/-- Does a node itself match a selector? -/
def matchesSel (s : Sel) (d : Dom) : Bool :=
  match s, d with
  | Sel.byTag t, Dom.elem tag _ _ => tag == t
  | Sel.byId i, Dom.elem _ attrs _ => attrOf attrs "id".toList == some i
  | Sel.byClass c, Dom.elem _ attrs _ =>
    match attrOf attrs "class".toList with
    | some v => (splitClasses v).contains c
    | none => false
  | Sel.byAttr t n v, Dom.elem tag attrs _ => tag == t && attrOf attrs n == some v
  | _, Dom.text _ => false

def matchesAny (sels : List Sel) (d : Dom) : Bool :=
  sels.any (fun s => matchesSel s d)

mutual
/-- `$(sels.join(", ")).remove()`: drop every matching element (with its
subtree) from the tree. -/
def removeMatching (sels : List Sel) : Dom → Dom
  | Dom.text s => Dom.text s
  | Dom.elem t a ch => Dom.elem t a (removeMatchingList sels ch)

def removeMatchingList (sels : List Sel) : List Dom → List Dom
  | [] => []
  | d :: ds =>
    if matchesAny sels d then removeMatchingList sels ds
    else removeMatching sels d :: removeMatchingList sels ds
end

mutual
/-- `$(sel).first()` below a node: first match in document pre-order, the
node itself excluded (we always query from the synthetic document root). -/
def findFirstIn (s : Sel) : Dom → Option Dom
  | Dom.text _ => none
  | Dom.elem _ _ ch => findFirstList s ch

def findFirstList (s : Sel) : List Dom → Option Dom
  | [] => none
  | d :: ds =>
    if matchesSel s d then some d
    else
      match findFirstIn s d with
      | some r => some r
      | none => findFirstList s ds
end

mutual
/-- All matches of a selector in document pre-order. -/
def findAllIn (s : Sel) : Dom → List Dom
  | Dom.text _ => []
  | Dom.elem _ _ ch => findAllList s ch

def findAllList (s : Sel) : List Dom → List Dom
  | [] => []
  | d :: ds =>
    (if matchesSel s d then
      d :: findAllIn s d else findAllIn s d) ++ findAllList s ds
end

mutual
/-- `.text()`: concatenation of every text node of the subtree. -/
def textOf : Dom → List Char
  | Dom.text s => s
  | Dom.elem _ _ ch => textOfList ch

def textOfList : List Dom → List Char
  | [] => []
  | d :: ds => textOf d ++ textOfList ds
end

mutual
/-- `cloned.find("br").replaceWith("\n")`: every `<br>` element becomes a
newline text node. -/
def replaceBrs : Dom → Dom
  | Dom.text s => Dom.text s
  | Dom.elem t a ch =>
    if t = "br".toList then Dom.text ['\n']
    else Dom.elem t a (replaceBrsList ch)

def replaceBrsList : List Dom → List Dom
  | [] => []
  | d :: ds => replaceBrs d :: replaceBrsList ds
end

/-- `extractTextWithParagraphs` (scraper.ts lines 69-84): replace `<br>` with
newlines, take the text, and collapse 3+ newline runs.  (The clone is a no-op
in a pure model.) -/
def extractTextWithParagraphs (el : Dom) : List Char :=
  collapseNl (textOf (replaceBrs el))

/-- Noise selectors removed before extraction (scraper.ts line 199). -/
def noiseSels : List Sel :=
  [Sel.byTag "script".toList, Sel.byTag "style".toList, Sel.byTag "nav".toList,
   Sel.byTag "header".toList, Sel.byTag "footer".toList, Sel.byTag "aside".toList,
   Sel.byClass "ad".toList, Sel.byClass "advertisement".toList,
   Sel.byClass "ads".toList]

/-- Noise selectors of the body fallback (scraper.ts line 236; no `.ads`). -/
def noiseSelsBody : List Sel :=
  [Sel.byTag "script".toList, Sel.byTag "style".toList, Sel.byTag "nav".toList,
   Sel.byTag "header".toList, Sel.byTag "footer".toList, Sel.byTag "aside".toList,
   Sel.byClass "ad".toList, Sel.byClass "advertisement".toList]

/-- The ordered content-container selector cascade (scraper.ts lines 210-221). -/
def contentSelectors : List Sel :=
  [Sel.byId "content".toList, Sel.byClass "content".toList,
   Sel.byId "chapter-content".toList, Sel.byClass "chapter-content".toList,
   Sel.byId "novel-content".toList, Sel.byClass "novel-content".toList,
   Sel.byTag "article".toList, Sel.byTag "main".toList,
   Sel.byClass "post-content".toList, Sel.byId "post-content".toList]

/-- JavaScript `a || b` on strings: the empty string is falsy. -/
def jsOr (a b : List Char) : List Char := if a = [] then b else a

/-- The per-page extraction result. -/
structure PageData where
  title : List Char
  content : List Char
deriving DecidableEq

/-- The selector loop of `extractPageContent` (scraper.ts lines 223-232):
each found candidate overwrites `content`; the loop stops at the first whose
trimmed length exceeds 100. -/
def selectLoop (d : Dom) : List Sel → List Char → List Char
  | [], content => content
  | sel :: rest, content =>
    match findFirstIn sel d with
    | some el =>
      let c := extractTextWithParagraphs el
      if 100 < (jsTrim c).length then c else selectLoop d rest c
    | none => selectLoop d rest content

/-- `$("h1").first().text().trim()` (scraper.ts line 203). -/
def h1Title (d : Dom) : List Char :=
  jsTrim (match findFirstIn (Sel.byTag "h1".toList) d with
          | some el => textOf el
          | none => [])

/-- `$("title").text().trim()` (scraper.ts line 204). -/
def docTitle (d : Dom) : List Char :=
  jsTrim (textOfList (findAllIn (Sel.byTag "title".toList) d))

/-- `$('meta[property="og:title"]').attr("content")` (scraper.ts line 205;
a missing attribute, like a missing element, is falsy). -/
def ogTitle (d : Dom) : List Char :=
  match findFirstIn
      (Sel.byAttr "meta".toList "property".toList "og:title".toList) d with
  | some (Dom.elem _ attrs _) => (attrOf attrs "content".toList).getD []
  | _ => []

/-- Title resolution of `extractPageContent` (scraper.ts lines 202-206):
`$("h1").first().text().trim() || $("title").text().trim() ||
$('meta[property="og:title"]').attr("content") || "Untitled Novel"`. -/
def resolveTitle (d : Dom) : List Char :=
  jsOr (h1Title d)
    (jsOr (docTitle d)
      (jsOr (ogTitle d) "Untitled Novel".toList))

/-- `extractPageContent` (scraper.ts lines 197-244). -/
def extractPageContent (doc : Dom) : PageData :=
  let d := removeMatching noiseSels doc
  let title := resolveTitle d
  let content0 := selectLoop d contentSelectors []
  let content1 :=
    if content0 = [] ∨ (jsTrim content0).length < 100 then
      let d2 := removeMatching noiseSelsBody d
      match findFirstIn (Sel.byTag "body".toList) d2 with
      | some b => extractTextWithParagraphs b
      | none => []
    else content0
  { title := title, content := cleanContent content1 }

/-- The mock page of the spec's end-to-end scenario:
`<h1>Chapter One</h1><div class="content"><p>Hello</p><p>World</p></div>`. -/
def mockPage : Dom :=
  Dom.elem "html".toList []
    [Dom.elem "head".toList [] [],
     Dom.elem "body".toList []
       [Dom.elem "h1".toList [] [Dom.text "Chapter One".toList],
        Dom.elem "div".toList [("class".toList, "content".toList)]
          [Dom.elem "p".toList [] [Dom.text "Hello".toList],
           Dom.elem "p".toList [] [Dom.text "World".toList]]]]

example : (extractPageContent mockPage).title = "Chapter One".toList := by decide
example : (extractPageContent mockPage).content = "Chapter OneHelloWorld".toList := by decide
example : extractTextWithParagraphs
    (Dom.elem "div".toList [("class".toList, "content".toList)]
      [Dom.elem "p".toList [] [Dom.text "Hello".toList],
       Dom.elem "p".toList [] [Dom.text "World".toList]]) = "HelloWorld".toList := by decide

/-! ### URL model

A modelled subset of WHATWG URL parsing sufficient for the URL shapes the
scraper handles: `scheme://host[:port]/path[?query][#fragment]`.  Userinfo,
IPv6 literals, percent-encoding normalization, backslash tolerance and
special-scheme single-slash recovery are outside the modelled subset; the
parser returns `none` where `new URL(...)` would need one of them (or would
throw). -/

structure UrlM where
  scheme : List Char
  host : List Char
  port : Option (List Char)
  path : List Char
  rawQuery : Option (List Char)
  frag : Option (List Char)
deriving DecidableEq

def isSchemeChar (c : Char) : Bool := c.isAlphanum ∨ c = '+' ∨ c = '-' ∨ c = '.'

def isAuthEnd (c : Char) : Bool := c = '/' ∨ c = '?' ∨ c = '#'

def parseUrl (s : List Char) : Option UrlM :=
  let sch := s.takeWhile isSchemeChar
  let rest := s.dropWhile isSchemeChar
  if sch.isEmpty then none
  else
    match rest with
    | ':' :: '/' :: '/' :: r =>
      let auth := r.takeWhile (fun c => ¬ isAuthEnd c)
      let rest2 := r.dropWhile (fun c => ¬ isAuthEnd c)
      let host := auth.takeWhile (fun c => c ≠ ':')
      let port :=
        match auth.dropWhile (fun c => c ≠ ':') with
        | ':' :: p => some p
        | _ => none
      if host.isEmpty then none
      else
        let pq := rest2.takeWhile (fun c => c ≠ '#')
        let frag :=
          match rest2.dropWhile (fun c => c ≠ '#') with
          | '#' :: f => some f
          | _ => none
        let path0 := pq.takeWhile (fun c => c ≠ '?')
        let rawQuery :=
          match pq.dropWhile (fun c => c ≠ '?') with
          | '?' :: q => some q
          | _ => none
        let path := if path0.isEmpty then ['/'] else path0
        some ⟨sch, host, port, path, rawQuery, frag⟩
    | _ => none

def portStr : Option (List Char) → List Char
  | some p => ':' :: p
  | none => []

def queryStr : Option (List Char) → List Char
  | some q => '?' :: q
  | none => []

def fragStr : Option (List Char) → List Char
  | some f => '#' :: f
  | none => []

/-- `url.href`. -/
def serializeUrl (u : UrlM) : List Char :=
  u.scheme ++ "://".toList ++ u.host ++ portStr u.port ++ u.path ++
  queryStr u.rawQuery ++ fragStr u.frag

/-- The entry list of `URLSearchParams` for a raw query string. -/
def queryPairs (q : List Char) : List (List Char × List Char) :=
  (q.splitOn '&').filterMap (fun seg =>
    if seg.isEmpty then none
    else
      let k := seg.takeWhile (fun c => c ≠ '=')
      if k.length < seg.length then some (k, seg.drop (k.length + 1))
      else some (k, []))

def pairsOf (u : UrlM) : List (List Char × List Char) :=
  match u.rawQuery with
  | some q => queryPairs q
  | none => []

/-- `url.searchParams.has(k)`. -/
def spHas (u : UrlM) (k : List Char) : Bool := (pairsOf u).any (fun p => p.1 == k)

/-- `url.searchParams.get(k)` (`none` models `null`). -/
def spGet (u : UrlM) (k : List Char) : Option (List Char) :=
  match (pairsOf u).find? (fun p => p.1 == k) with
  | some p => some p.2
  | none => none

def serializePairs : List (List Char × List Char) → List Char
  | [] => []
  | p :: rest =>
    p.1 ++ '=' :: p.2 ++ (if rest.isEmpty then [] else '&' :: serializePairs rest)

/-- Replace the first pair with the key and drop the other pairs with it. -/
def setFirstPair (k v : List Char) : List (List Char × List Char) →
    List (List Char × List Char)
  | [] => []
  | p :: rest =>
    if p.1 == k then (k, v) :: rest.filter (fun q => ¬ q.1 == k)
    else p :: setFirstPair k v rest

/-- `url.searchParams.set(k, v)` followed by reading `url.href`: the query is
re-serialized from the updated entry list. -/
def spSet (u : UrlM) (k v : List Char) : UrlM :=
  let ps := pairsOf u
  let ps2 := if ps.any (fun p => p.1 == k) then setFirstPair k v ps
    else ps ++ [(k, v)]
  { u with rawQuery := some (serializePairs ps2) }

/-! ### Regex scanners for the pagination patterns -/

/-- Decimal digits of a natural number (`n.toString()`); the fuel is an upper
bound on the number of digits. -/
def numToStrAux : Nat → Nat → List Char
  | 0, _ => []
  | fuel + 1, n =>
    if n < 10 then [Char.ofNat (48 + n)]
    else numToStrAux fuel (n / 10) ++ [Char.ofNat (48 + n % 10)]

def numToStr (n : Nat) : List Char := numToStrAux (n + 1) n

def takeDigits (s : List Char) : List Char := s.takeWhile Char.isDigit

def digitsToNat (ds : List Char) : Nat :=
  ds.foldl (fun n c => n * 10 + (c.toNat - 48)) 0

/-- Case-insensitive literal prefix match; returns the rest on success. -/
def matchCI : List Char → List Char → Option (List Char)
  | [], s => some s
  | _ :: _, [] => none
  | l :: ls, c :: cs => if c.toLower = l.toLower then matchCI ls cs else none

/-- Leftmost match of a positional matcher. -/
def scanFirst (f : List Char → Option (List Char)) : List Char → Option (List Char)
  | [] => none
  | c :: rest =>
    match f (c :: rest) with
    | some x => some x
    | none => scanFirst f rest

/-- A nonempty digit run at the head; returns it. -/
def digitsAt (s : List Char) : Option (List Char) :=
  let ds := takeDigits s
  if ds.isEmpty then none else some ds

/-- `/[?&]name[=_](\d+)/i` at the current position. -/
def queryNumAt (name : List Char) (s : List Char) : Option (List Char) :=
  match s with
  | [] => none
  | c :: rest =>
    if c = '?' ∨ c = '&' then
      match matchCI name rest with
      | some (d :: r3) => if d = '=' ∨ d = '_' then digitsAt r3 else none
      | _ => none
    else none

/-- `/\/page[\/_-](\d+)/i` at the current position; returns the capture and
the rest after the match. -/
def pagePathAt (s : List Char) : Option (List Char × List Char) :=
  match s with
  | [] => none
  | c :: rest =>
    if c = '/' then
      match matchCI "page".toList rest with
      | some (d :: r3) =>
        if d = '/' ∨ d = '_' ∨ d = '-' then
          match digitsAt r3 with
          | some ds => some (ds, r3.drop ds.length)
          | none => none
        else none
      | _ => none
    else none

/-- Optional-`l` tail of `html?` followed by the end of the string. -/
def htmlTailEnd (s : List Char) : Bool :=
  match s with
  | [] => true
  | [c] => c.toLower = 'l'
  | _ => false

/-- `/(\d+)\.html?$/i` at the current position (anchored at the end). -/
def numHtmlAt (s : List Char) : Option (List Char) :=
  match digitsAt s with
  | some ds =>
    match s.drop ds.length with
    | '.' :: r2 =>
      match matchCI "htm".toList r2 with
      | some r3 => if htmlTailEnd r3 then some ds else none
      | none => none
    | _ => none
  | none => none

/-- `/[_-](\d+)\.html?$/i` at the current position. -/
def sepNumHtmlAt (s : List Char) : Option (List Char) :=
  match s with
  | [] => none
  | c :: rest => if c = '_' ∨ c = '-' then numHtmlAt rest else none

/-- `/_(\d+)\.html?$/i` at the current position. -/
def underscoreNumHtmlAt (s : List Char) : Option (List Char) :=
  match s with
  | [] => none
  | c :: rest => if c = '_' then numHtmlAt rest else none

/-- `/\/p(\d+)/i` at the current position. -/
def slashPnumAt (s : List Char) : Option (List Char) :=
  match s with
  | '/' :: c :: rest => if c.toLower = 'p' then digitsAt (c :: rest).tail else none
  | _ => none

/-- `extractPageNumber` (scraper.ts lines 408-425): the first pattern that
matches anywhere in the URL wins; its digit capture is parsed. -/
def extractPageNumber (url : List Char) : Option Nat :=
  match scanFirst (queryNumAt "chapterNumber".toList) url with
  | some ds => some (digitsToNat ds)
  | none =>
  match scanFirst (queryNumAt "page".toList) url with
  | some ds => some (digitsToNat ds)
  | none =>
  match scanFirst (fun s => (pagePathAt s).map Prod.fst) url with
  | some ds => some (digitsToNat ds)
  | none =>
  match scanFirst sepNumHtmlAt url with
  | some ds => some (digitsToNat ds)
  | none =>
  match scanFirst slashPnumAt url with
  | some ds => some (digitsToNat ds)
  | none => none

/-! ### Next-page URL construction and the chapter guard -/

/-- Replace the leftmost `/page[\/_-]\d+` in a path by `/page/<n>`. -/
def replPagePath (n : Nat) : List Char → Option (List Char)
  | [] => none
  | c :: rest =>
    match pagePathAt (c :: rest) with
    | some (_, after) => some ("/page/".toList ++ numToStr n ++ after)
    | none =>
      match replPagePath n rest with
      | some r => some (c :: r)
      | none => none

/-- Replace the `\d+\.html?$` suffix by `<n>.html`. -/
def replNumHtml (n : Nat) : List Char → Option (List Char)
  | [] => none
  | c :: rest =>
    match numHtmlAt (c :: rest) with
    | some _ => some (numToStr n ++ ".html".toList)
    | none =>
      match replNumHtml n rest with
      | some r => some (c :: r)
      | none => none

/-- Replace the `_\d+\.html?$` suffix by `_<n>.html`. -/
def replUnderscoreHtml (n : Nat) : List Char → Option (List Char)
  | [] => none
  | c :: rest =>
    match underscoreNumHtmlAt (c :: rest) with
    | some _ => some ('_' :: numToStr n ++ ".html".toList)
    | none =>
      match replUnderscoreHtml n rest with
      | some r => some (c :: r)
      | none => none

/-- `constructNextPageUrl` (scraper.ts lines 356-403). -/
def constructNextPageUrl (currentUrl : List Char) (currentPage nextPage : Nat) :
    Option (List Char) :=
  match parseUrl currentUrl with
  | none => none
  | some url =>
    if spHas url "chapterNumber".toList then
      some (serializeUrl (spSet url "chapterNumber".toList (numToStr nextPage)))
    else if spHas url "page".toList then
      some (serializeUrl (spSet url "page".toList (numToStr nextPage)))
    else
      match replPagePath nextPage url.path with
      | some p2 => some (serializeUrl { url with path := p2 })
      | none =>
      match replNumHtml nextPage url.path with
      | some p2 => some (serializeUrl { url with path := p2 })
      | none =>
      match replUnderscoreHtml nextPage url.path with
      | some p2 => some (serializeUrl { url with path := p2 })
      | none =>
        if currentPage = 1 ∧ ¬ spHas url "page".toList
            ∧ ¬ spHas url "chapterNumber".toList then
          some (serializeUrl (spSet url "page".toList (numToStr nextPage)))
        else none

/-- `/(?:chapter|ch)[\/_-]?(\d+)/i` at the current position: try the longer
alternative first, then the shorter; the optional separator must be followed
by digits (a separator is never a digit, so no further backtracking arises). -/
def chapterAt (s : List Char) : Option (List Char) :=
  let afterKw : List Char → Option (List Char) := fun r =>
    match r with
    | d :: r2 => if d = '/' ∨ d = '_' ∨ d = '-' then digitsAt r2 else digitsAt r
    | [] => none
  match matchCI "chapter".toList s with
  | some r =>
    match afterKw r with
    | some ds => some ds
    | none =>
      match matchCI "ch".toList s with
      | some r2 => afterKw r2
      | none => none
  | none =>
    match matchCI "ch".toList s with
    | some r2 => afterKw r2
    | none => none

/-- The `(\d+)` capture of the chapter pattern, leftmost match in the path. -/
def chapterCapture (path : List Char) : Option (List Char) :=
  scanFirst chapterAt path

/-- `path.replace(/[_-]?\d+\.html?$/i, "")`. -/
def stripNumHtml : List Char → List Char
  | [] => []
  | c :: rest =>
    match sepNumHtmlAt (c :: rest) with
    | some _ => []
    | none =>
      match numHtmlAt (c :: rest) with
      | some _ => []
      | none => c :: stripNumHtml rest

/-- `/[?&]page=\d+/i` at the current position; returns the rest after the
match. -/
def pageParamAt (s : List Char) : Option (List Char) :=
  match s with
  | [] => none
  | c :: rest =>
    if c = '?' ∨ c = '&' then
      match matchCI "page".toList rest with
      | some ('=' :: r3) =>
        match digitsAt r3 with
        | some ds => some (r3.drop ds.length)
        | none => none
      | _ => none
    else none

/-- `s.replace(/[?&]page=\d+/i, "")`. -/
def stripPageParam : List Char → List Char
  | [] => []
  | c :: rest =>
    match pageParamAt (c :: rest) with
    | some after => after
    | none => c :: stripPageParam rest

/-- The "base path" used by the chapter guard (scraper.ts lines 469-480). -/
def basePathOf (path : List Char) : List Char :=
  stripPageParam (stripNumHtml path)

/-- Truthiness of `searchParams.get(...)` (null and the empty string are
falsy). -/
def optTruthy : Option (List Char) → Bool
  | some s => ¬ s.isEmpty
  | none => false

def natDist (a b : Nat) : Nat := max a b - min a b

/-- The indexed filter of scraper.ts lines 497-499: positions where the other
list has an entry and the parts agree exactly or both contain a digit. -/
def matchCount (xs ys : List (List Char)) : Nat :=
  (List.zip xs ys).countP
    (fun p => p.1 == p.2 || (p.1.any Char.isDigit && p.2.any Char.isDigit))

def pathParts (p : List Char) : List (List Char) :=
  (p.splitOn '/').filter (fun l => ¬ l.isEmpty)

/-- The body of the try block of `isSameChapter` on two successfully parsed
URLs (scraper.ts lines 438-509). -/
def sameChapterCore (u1 u2 : UrlM) : Bool :=
  if u1.host ≠ u2.host then false
  else
      let path1 := u1.path
      let path2 := u2.path
      if path1 = path2 then
        let page1 := spGet u1 "page".toList
        let page2 := spGet u2 "page".toList
        if page1 ≠ page2 ∧ (optTruthy page1 ∨ optTruthy page2) then true
        else true
      else
        match chapterCapture path1, chapterCapture path2 with
        | some a, some b => a == b
        | some _, none =>
          if basePathOf path1 = basePathOf path2 then true else false
        | none, some _ =>
          if basePathOf path1 = basePathOf path2 then true else false
        | none, none =>
          let basePath1 := basePathOf path1
          let basePath2 := basePathOf path2
          if basePath1 = basePath2 then true
          else
            let parts1 := pathParts basePath1
            let parts2 := pathParts basePath2
            if 1 < natDist parts1.length parts2.length then false
            else if 2 * matchCount parts1 parts2 < min parts1.length parts2.length
              then false
            else true

/-- `isSameChapter` (scraper.ts lines 431-518): the try block on the parsed
URLs; the lenient catch branch compares hostnames again and yields `false`
when parsing itself failed. -/
def isSameChapter (url1 url2 : List Char) : Bool :=
  match parseUrl url1, parseUrl url2 with
  | some u1, some u2 => sameChapterCore u1 u2
  | _, _ =>
    match parseUrl url1, parseUrl url2 with
    | some a, some b => a.host == b.host
    | _, _ => false

/-- `title.replace(/\.txt$|\.md$/i, "")`. -/
def endsWithCI (suf t : List Char) : Bool :=
  suf.length ≤ t.length ∧ (t.drop (t.length - suf.length)).map Char.toLower == suf

def stripTitleExt (t : List Char) : List Char :=
  if endsWithCI ".txt".toList t then t.take (t.length - 4)
  else if endsWithCI ".md".toList t then t.take (t.length - 3)
  else t

example : extractPageNumber "http://x.com/c?page=3".toList = some 3 := by decide
example : extractPageNumber "http://x.com/c/12.html".toList = none := by decide
example : extractPageNumber "http://x.com/c_12.html".toList = some 12 := by decide
example : constructNextPageUrl "http://x.com/c?page=1".toList 1 2
    = some "http://x.com/c?page=2".toList := by decide
example : constructNextPageUrl "http://x.com/novel/ch1".toList 1 2
    = some "http://x.com/novel/ch1?page=2".toList := by decide
example : isSameChapter "http://x.com/c/1?page=1".toList "http://x.com/c/1?page=2".toList
    = true := by decide
example : isSameChapter "http://a.com/c/1".toList "http://b.com/c/1".toList
    = false := by decide
example : stripTitleExt "novel.TXT".toList = "novel".toList := by decide

/-! ### Crawl orchestrator (`scrapeNovel`, scraper.ts lines 527-700)

Errors are modelled by their message strings (the scraper only ever rethrows
`Error` objects unchanged, so the message identifies the failure).  The
external capabilities are collected in `Env`: `fetchParsed` is `fetchHtml`
followed by `cheerio.load` (an `error` models a thrown fetch-layer failure),
`findNext` abstracts the DOM-dependent `findNextPageLink` heuristic as a pure
function of the fetched page, and `convert` is the OpenCC conversion
(`convertToTraditional` is total: it returns its input on failure). -/

abbrev ErrMsg := List Char

/-- The message thrown when the extracted content is too short
(scraper.ts lines 539-541 and 670-674). -/
def extractionErrorMsg : ErrMsg :=
  ("Could not extract meaningful content from the URL. " ++
   "The page structure may not be supported, or the content may be " ++
   "loaded dynamically via JavaScript.").toList

structure Env where
  fetchParsed : List Char → Except ErrMsg Dom
  findNext : List Char → Dom → Option (List Char)
  convert : List Char → List Char

structure ScrapedNovel where
  title : List Char
  content : List Char
deriving DecidableEq

/-- Final conversion and title clean-up, shared by both modes
(scraper.ts lines 544-559 and 676-691). -/
def finalizeNovel (env : Env) (title fullContent : List Char) : ScrapedNovel :=
  let isSimp := isSimplifiedChinese fullContent
  let content2 := if isSimp then env.convert fullContent else fullContent
  let title2 := if isSimp then env.convert title else title
  ⟨stripTitleExt title2, content2⟩

/-- Single-page mode (scraper.ts lines 532-560). -/
def scrapeSingle (env : Env) (url : List Char) : Except ErrMsg ScrapedNovel :=
  match env.fetchParsed url with
  | .error e => .error e
  | .ok dom =>
    let pd := extractPageContent dom
    if pd.content = [] ∨ pd.content.length < 50 then .error extractionErrorMsg
    else .ok (finalizeNovel env pd.title pd.content)

/-- The transient crawl state (`currentUrl`, `fullContent`, `title`,
`visitedUrls`, `pageCount`); `trace` additionally records each URL passed to
`fetchHtml`, in order, to let the theorems count fetches. -/
structure CrawlSt where
  currentUrl : Option (List Char)
  fullContent : List Char
  title : List Char
  visitedUrls : List (List Char)
  pageCount : Nat
  trace : List (List Char)
deriving DecidableEq

/-- `"\n\n---\n\n"`, inserted between pages (scraper.ts line 596). -/
def pageSeparator : List Char := "\n\n---\n\n".toList

/-- The multi-page while loop (scraper.ts lines 572-661).  The fuel argument
only reflects the loop bound `pageCount < maxPages` already present in the
guard: called with `fuel = maxPages - pageCount` it never runs out before the
guard fails, since both drop by one per iteration. -/
def crawlLoop (env : Env) (maxPages : Nat) (baseUrl : List Char) :
    Nat → CrawlSt → CrawlSt × Option ErrMsg
  | 0, st => (st, none)
  | fuel + 1, st =>
    match st.currentUrl with
    | none => (st, none)
    | some u =>
      if u ∈ st.visitedUrls then (st, none)
      else if maxPages ≤ st.pageCount then (st, none)
      else
        let st1 := { st with pageCount := st.pageCount + 1,
                             visitedUrls := st.visitedUrls ++ [u],
                             trace := st.trace ++ [u] }
        match env.fetchParsed u with
        | .error e =>
          if st1.fullContent ≠ [] ∧ 100 < st1.fullContent.length then
            (st1, none)
          else (st1, some e)
        | .ok dom =>
          let pd := extractPageContent dom
          let title2 := if st1.title = [] ∧ pd.title ≠ [] then pd.title else st1.title
          let content2 :=
            if pd.content ≠ [] ∧ 50 < (jsTrim pd.content).length then
              (if st1.fullContent ≠ [] then st1.fullContent ++ pageSeparator
               else st1.fullContent) ++ pd.content
            else st1.fullContent
          let found := env.findNext u dom
          let cand :=
            match found with
            | some n => (some n, false)
            | none =>
              if st1.pageCount < maxPages then
                match extractPageNumber u with
                | some cp =>
                  match constructNextPageUrl u cp (cp + 1) with
                  | some n => (some n, true)
                  | none => ((none : Option (List Char)), false)
                | none =>
                  if st1.pageCount = 1 then
                    match constructNextPageUrl u 1 2 with
                    | some n => (some n, true)
                    | none => ((none : Option (List Char)), false)
                  else ((none : Option (List Char)), false)
              else ((none : Option (List Char)), false)
          let newCurrent :=
            match cand.1 with
            | some n =>
              if cand.2 ∨ isSameChapter baseUrl n then
                if n ∈ st1.visitedUrls then none else some n
              else none
            | none => none
          crawlLoop env maxPages baseUrl fuel
            { st1 with title := title2, fullContent := content2,
                       currentUrl := newCurrent }

/-- Post-loop processing (scraper.ts lines 663-691): minimum-length gate,
script conversion, and title clean-up. -/
def scrapePost (env : Env) (res : CrawlSt × Option ErrMsg) :
    Except ErrMsg ScrapedNovel × List (List Char) :=
  match res.2 with
  | some e => (.error e, res.1.trace)
  | none =>
    if res.1.fullContent = [] ∨ res.1.fullContent.length < 50 then
      (.error extractionErrorMsg, res.1.trace)
    else (.ok (finalizeNovel env res.1.title res.1.fullContent), res.1.trace)

/-- Multi-page mode: run the loop from the initial state, then apply the
post-loop processing (scraper.ts lines 562-691).  Also returns the fetch
trace. -/
def scrapeMultiT (env : Env) (url : List Char) (maxPages : Nat) :
    Except ErrMsg ScrapedNovel × List (List Char) :=
  let init : CrawlSt := ⟨some url, [], [], [], 0, []⟩
  scrapePost env (crawlLoop env maxPages url maxPages init)

/-- `scrapeNovel(url, maxPages)` with its fetch trace: single-page mode when
`maxPages` is absent or not positive. -/
def scrapeNovelT (env : Env) (url : List Char) (maxPages : Option Int) :
    Except ErrMsg ScrapedNovel × List (List Char) :=
  match maxPages with
  | none => (scrapeSingle env url, [url])
  | some m =>
    if m ≤ 0 then (scrapeSingle env url, [url])
    else scrapeMultiT env url m.toNat

/-- `scrapeNovel` proper. -/
def scrapeNovel (env : Env) (url : List Char) (maxPages : Option Int) :
    Except ErrMsg ScrapedNovel :=
  (scrapeNovelT env url maxPages).1

/-- The URLs handed to `fetchHtml` during one `scrapeNovel` call. -/
def scrapeTrace (env : Env) (url : List Char) (maxPages : Option Int) :
    List (List Char) :=
  (scrapeNovelT env url maxPages).2

/-- The `maxPages` computed by the HTTP route (src/unnamed/part_000 lines
139-141): positive request values are clamped to 500, others mean single-page
mode. -/
def routeMaxPages (pageCount : Int) : Option Int :=
  if 0 < pageCount then some (min pageCount 500) else none

/-- The route-level scrape: clamp, then `scrapeNovel`. -/
def routeScrape (env : Env) (url : List Char) (pageCount : Int) :
    Except ErrMsg ScrapedNovel × List (List Char) :=
  scrapeNovelT env url (routeMaxPages pageCount)

/-! ### Concrete environments used by the claim witnesses -/

/-- A page whose body is 120 plain characters. -/
def longTextPage : Dom :=
  Dom.elem "html".toList []
    [Dom.elem "head".toList [] [],
     Dom.elem "body".toList [] [Dom.text (List.replicate 120 'a')]]

/-- Environment with an endless pagination chain: every fetch succeeds with
`longTextPage` and the next-page link always increments the page parameter. -/
def chainEnv : Env where
  fetchParsed _ := .ok longTextPage
  findNext u _ :=
    match extractPageNumber u with
    | some n => constructNextPageUrl u n (n + 1)
    | none => none
  convert t := t

/-- Environment whose next-page link always points back at the same URL. -/
def selfLoopEnv : Env where
  fetchParsed _ := .ok longTextPage
  findNext u _ := some u
  convert t := t

set_option maxRecDepth 4000 in
example : (scrapeNovelT chainEnv "http://x.com/c?page=1".toList (some 5)).2.length
    = 5 := by decide
set_option maxRecDepth 4000 in
example : (scrapeNovelT chainEnv "http://x.com/c?page=1".toList (some 5)).1.isOk
    = true := by decide
set_option maxRecDepth 4000 in
example : (scrapeNovelT selfLoopEnv "http://x.com/c?page=1".toList (some 5)).2.length
    = 1 := by decide

/-! ### Loop invariants of the crawl -/

theorem crawlLoop_trace_bound (env : Env) (mp : Nat) (base : List Char) :
    ∀ (fuel : Nat) (st : CrawlSt),
      ((crawlLoop env mp base fuel st).1.trace).length ≤ st.trace.length + fuel := by
  intro fuel
  induction fuel with
  | zero => intro st; simp [crawlLoop]
  | succ f ih =>
    intro st
    rw [crawlLoop]
    cases hcu : st.currentUrl with
    | none => simp
    | some u =>
      by_cases hv : u ∈ st.visitedUrls
      · simp [hv]
      · by_cases hmp : mp ≤ st.pageCount
        · simp [hv, hmp]
        · simp only [hv, hmp, if_false, ite_false, if_neg, not_false_iff]
          cases hf : env.fetchParsed u with
          | error e =>
            simp only [hv, hmp]
            split
            · simp
            · simp
          | ok dom =>
            simp only [hv, hmp]
            refine le_trans (ih _) ?_
            simp
            omega

theorem crawlLoop_trace_nodup (env : Env) (mp : Nat) (base : List Char) :
    ∀ (fuel : Nat) (st : CrawlSt),
      st.trace.Nodup → (∀ x ∈ st.trace, x ∈ st.visitedUrls) →
      ((crawlLoop env mp base fuel st).1.trace).Nodup := by
  intro fuel
  induction fuel with
  | zero => intro st h1 _; simpa [crawlLoop] using h1
  | succ f ih =>
    intro st h1 h2
    rw [crawlLoop]
    cases hcu : st.currentUrl with
    | none => simpa using h1
    | some u =>
      by_cases hv : u ∈ st.visitedUrls
      · simpa [hv] using h1
      · by_cases hmp : mp ≤ st.pageCount
        · simpa [hv, hmp] using h1
        · have hnotin : u ∉ st.trace := fun hm => hv (h2 u hm)
          have h1x : (st.trace ++ [u]).Nodup := by
            simp [List.nodup_append, h1, hnotin]
          have h2x : ∀ x ∈ st.trace ++ [u], x ∈ st.visitedUrls ++ [u] := by
            intro x hx
            rcases List.mem_append.mp hx with h | h
            · exact List.mem_append_left _ (h2 x h)
            · exact List.mem_append_right _ h
          simp only [hv, hmp]
          cases hf : env.fetchParsed u with
          | error e =>
            simp only [hv, hmp]
            by_cases hcond : st.fullContent ≠ [] ∧ 100 < st.fullContent.length
            · rw [if_pos hcond]
              simpa using h1x
            · rw [if_neg hcond]
              simpa using h1x
          | ok dom =>
            simp only [hv, hmp]
            exact ih _ h1x h2x

/-- One unfolding of the while body when the fetch of the current page
throws: the error is absorbed exactly when the buffer holds more than 100
characters (scraper.ts lines 651-660). -/
theorem crawlLoop_error_step (env : Env) (mp : Nat) (base : List Char)
    (fuel : Nat) (st : CrawlSt) (u : List Char) (e : ErrMsg)
    (hcu : st.currentUrl = some u) (hv : u ∉ st.visitedUrls)
    (hmp : st.pageCount < mp) (hf : env.fetchParsed u = .error e) :
    crawlLoop env mp base (fuel + 1) st =
      ({ st with pageCount := st.pageCount + 1,
                 visitedUrls := st.visitedUrls ++ [u],
                 trace := st.trace ++ [u] },
       if st.fullContent ≠ [] ∧ 100 < st.fullContent.length then none
       else some e) := by
  rw [crawlLoop, hcu]
  have hmp2 : ¬ mp ≤ st.pageCount := by omega
  simp only [hv, hmp2, if_false, ite_false, if_neg, not_false_iff, hf]
  by_cases hcond : st.fullContent ≠ [] ∧ 100 < st.fullContent.length
  · rw [if_pos hcond, if_pos hcond]
  · rw [if_neg hcond, if_neg hcond]

/-! ### Well-formedness of parsed URLs and the serialization round trip -/

theorem takeWhile_append_all (p : Char → Bool) (x y : List Char)
    (hx : ∀ c ∈ x, p c = true) : (x ++ y).takeWhile p = x ++ y.takeWhile p := by
  induction x with
  | nil => simp
  | cons c t ih =>
    have hc : p c = true := hx c (List.mem_cons_self _ _)
    simp only [List.cons_append, List.takeWhile_cons, hc, if_true]
    rw [ih (fun d hd => hx d (List.mem_cons_of_mem _ hd))]

theorem dropWhile_append_all (p : Char → Bool) (x y : List Char)
    (hx : ∀ c ∈ x, p c = true) : (x ++ y).dropWhile p = y.dropWhile p := by
  induction x with
  | nil => simp
  | cons c t ih =>
    have hc : p c = true := hx c (List.mem_cons_self _ _)
    simp only [List.cons_append, List.dropWhile_cons, hc, if_true]
    exact ih (fun d hd => hx d (List.mem_cons_of_mem _ hd))

theorem takeWhile_cons_neg (p : Char → Bool) (c : Char) (t : List Char)
    (hc : p c = false) : (c :: t).takeWhile p = [] := by
  simp [List.takeWhile_cons, hc]

theorem dropWhile_cons_neg (p : Char → Bool) (c : Char) (t : List Char)
    (hc : p c = false) : (c :: t).dropWhile p = c :: t := by
  simp [List.dropWhile_cons, hc]

theorem matchCI_suffix (lit : List Char) :
    ∀ (s r : List Char), matchCI lit s = some r → r <:+ s := by
  induction lit with
  | nil =>
    intro s r h
    simp [matchCI] at h
    exact h ▸ List.suffix_refl s
  | cons l ls ih =>
    intro s r h
    cases s with
    | nil => simp [matchCI] at h
    | cons c cs =>
      rw [matchCI] at h
      by_cases hc : c.toLower = l.toLower
      · rw [if_pos hc] at h
        exact (ih cs r h).trans (List.suffix_cons c cs)
      · rw [if_neg hc] at h
        exact absurd h (by simp)

theorem mem_numToStrAux (fuel n : Nat) (c : Char) (h : c ∈ numToStrAux fuel n) :
    ∃ m, m < 10 ∧ c = Char.ofNat (48 + m) := by
  induction fuel generalizing n with
  | zero => simp [numToStrAux] at h
  | succ f ih =>
    rw [numToStrAux] at h
    by_cases hn : n < 10
    · rw [if_pos hn] at h
      simp at h
      exact ⟨n, hn, h⟩
    · rw [if_neg hn] at h
      rcases List.mem_append.mp h with h1 | h1
      · exact ih _ h1
      · simp at h1
        exact ⟨n % 10, Nat.mod_lt _ (by omega), h1⟩

theorem digit_not_authEnd (m : Nat) (hm : m < 10) :
    isAuthEnd (Char.ofNat (48 + m)) = false := by
  interval_cases m <;> decide

theorem numToStr_safe (n : Nat) (c : Char) (h : c ∈ numToStr n) :
    isAuthEnd c = false := by
  obtain ⟨m, hm, rfl⟩ := mem_numToStrAux _ _ _ h
  exact digit_not_authEnd m hm

theorem splitOnP_subset (p : Char → Bool) (s : List Char) :
    ∀ l ∈ s.splitOnP p, ∀ x ∈ l, x ∈ s := by
  induction s with
  | nil =>
    intro l hl x hx
    simp [List.splitOnP_nil] at hl
    subst hl
    simp at hx
  | cons c t ih =>
    intro l hl x hx
    rw [List.splitOnP_cons] at hl
    by_cases h : p c
    · rw [if_pos h] at hl
      rcases List.mem_cons.mp hl with h1 | h1
      · subst h1; simp at hx
      · exact List.mem_cons_of_mem _ (ih l h1 x hx)
    · rw [if_neg h] at hl
      cases ht : t.splitOnP p with
      | nil => exact absurd ht (List.splitOnP_ne_nil p t)
      | cons hd tl =>
        rw [ht] at hl
        rw [List.modifyHead_cons] at hl
        rcases List.mem_cons.mp hl with h1 | h1
        · subst h1
          rcases List.mem_cons.mp hx with h2 | h2
          · exact h2 ▸ List.mem_cons_self _ _
          · exact List.mem_cons_of_mem _
              (ih hd (ht ▸ List.mem_cons_self hd tl) x h2)
        · exact List.mem_cons_of_mem _
            (ih l (ht ▸ List.mem_cons_of_mem hd h1) x hx)

theorem mem_queryPairs (q : List Char) (p : List Char × List Char)
    (hp : p ∈ queryPairs q) : (∀ c ∈ p.1, c ∈ q) ∧ (∀ c ∈ p.2, c ∈ q) := by
  unfold queryPairs at hp
  obtain ⟨seg, hseg, hmk⟩ := List.mem_filterMap.mp hp
  have hsub : ∀ x ∈ seg, x ∈ q := splitOnP_subset _ q seg hseg
  by_cases hse : seg.isEmpty
  · rw [if_pos hse] at hmk; simp at hmk
  · rw [if_neg hse] at hmk
    by_cases hlen : (seg.takeWhile (fun c => c ≠ '=')).length < seg.length
    · rw [if_pos hlen] at hmk
      obtain rfl := Option.some_inj.mp hmk
      constructor
      · intro c hc
        exact hsub c ((List.takeWhile_sublist _).subset hc)
      · intro c hc
        exact hsub c (List.drop_subset _ _ hc)
    · rw [if_neg hlen] at hmk
      obtain rfl := Option.some_inj.mp hmk
      constructor
      · intro c hc
        exact hsub c ((List.takeWhile_sublist _).subset hc)
      · intro c hc
        simp at hc

theorem mem_serializePairs (ps : List (List Char × List Char)) (c : Char)
    (h : c ∈ serializePairs ps) :
    (∃ p ∈ ps, c ∈ p.1 ∨ c ∈ p.2) ∨ c = '=' ∨ c = '&' := by
  induction ps with
  | nil => simp [serializePairs] at h
  | cons p rest ih =>
    rw [serializePairs] at h
    rcases List.mem_append.mp h with h1 | h1
    · rcases List.mem_append.mp h1 with h2 | h2
      · exact Or.inl ⟨p, List.mem_cons_self _ _, Or.inl h2⟩
      · rcases List.mem_cons.mp h2 with h3 | h3
        · exact Or.inr (Or.inl h3)
        · exact Or.inl ⟨p, List.mem_cons_self _ _, Or.inr h3⟩
    · by_cases hre : rest.isEmpty
      · rw [if_pos hre] at h1
        simp at h1
      · rw [if_neg hre] at h1
        rcases List.mem_cons.mp h1 with h4 | h4
        · exact Or.inr (Or.inr h4)
        · rcases ih h4 with ⟨pp, hpp, hc⟩ | hc
          · exact Or.inl ⟨pp, List.mem_cons_of_mem _ hpp, hc⟩
          · exact Or.inr hc

theorem mem_setFirstPair (k v : List Char) (ps : List (List Char × List Char))
    (p : List Char × List Char) (hp : p ∈ setFirstPair k v ps) :
    p = (k, v) ∨ p ∈ ps := by
  induction ps with
  | nil => simp [setFirstPair] at hp
  | cons q rest ih =>
    rw [setFirstPair] at hp
    by_cases hq : q.1 == k
    · rw [if_pos hq] at hp
      rcases List.mem_cons.mp hp with h1 | h1
      · exact Or.inl h1
      · exact Or.inr (List.mem_cons_of_mem _ (List.mem_of_mem_filter h1))
    · rw [if_neg hq] at hp
      rcases List.mem_cons.mp hp with h1 | h1
      · exact Or.inr (h1 ▸ List.mem_cons_self _ _)
      · rcases ih h1 with h2 | h2
        · exact Or.inl h2
        · exact Or.inr (List.mem_cons_of_mem _ h2)

theorem takeWhile_all (p : Char → Bool) (x : List Char)
    (h : ∀ c ∈ x, p c = true) : x.takeWhile p = x := by
  have := takeWhile_append_all p x [] h
  simpa using this

theorem dropWhile_all (p : Char → Bool) (x : List Char)
    (h : ∀ c ∈ x, p c = true) : x.dropWhile p = [] := by
  have := dropWhile_append_all p x [] h
  simpa using this

/-- What `parseUrl` guarantees about its result, and what `serializeUrl`
needs in order to round-trip. -/
def WfUrl (u : UrlM) : Prop :=
  u.scheme ≠ [] ∧ (∀ c ∈ u.scheme, isSchemeChar c = true) ∧
  u.host ≠ [] ∧ (∀ c ∈ u.host, isAuthEnd c = false ∧ c ≠ ':') ∧
  (∀ p, u.port = some p → ∀ c ∈ p, isAuthEnd c = false) ∧
  u.path.head? = some '/' ∧ (∀ c ∈ u.path, c ≠ '?' ∧ c ≠ '#') ∧
  (∀ q, u.rawQuery = some q → ∀ c ∈ q, c ≠ '#')

theorem head?_takeWhile (p : Char → Bool) (l : List Char) (c : Char)
    (h : (l.takeWhile p).head? = some c) : l.head? = some c := by
  cases l with
  | nil => simp at h
  | cons a t =>
    rw [List.takeWhile_cons] at h
    by_cases hp : p a
    · rw [if_pos hp] at h
      simpa using h
    · rw [if_neg hp] at h
      simp at h

theorem isAuthEnd_cases (c : Char) (h : isAuthEnd c = true) :
    c = '/' ∨ c = '?' ∨ c = '#' := by
  simpa [isAuthEnd] using h

theorem parseUrl_wf (s : List Char) (u : UrlM) (h : parseUrl s = some u) :
    WfUrl u := by
  unfold parseUrl at h
  by_cases hs : (s.takeWhile isSchemeChar).isEmpty
  · rw [if_pos hs] at h
    exact absurd h (by simp)
  · rw [if_neg hs] at h
    split at h
    · rename_i r heq
      by_cases hhe : ((r.takeWhile (fun c => ¬ isAuthEnd c)).takeWhile
          (fun c => c ≠ ':')).isEmpty
      · rw [if_pos hhe] at h
        exact absurd h (by simp)
      · rw [if_neg hhe] at h
        obtain rfl := (Option.some_inj.mp h).symm
        refine ⟨?_, ?_, ?_, ?_, ?_, ?_, ?_, ?_⟩
        · simpa [List.isEmpty_iff] using hs
        · intro c hc
          exact List.mem_takeWhile_imp hc
        · simpa [List.isEmpty_iff] using hhe
        · intro c hc
          constructor
          · have hc2 : c ∈ r.takeWhile (fun c => ¬ isAuthEnd c) :=
              (List.takeWhile_sublist _).subset hc
            have := List.mem_takeWhile_imp hc2
            simpa using this
          · have := List.mem_takeWhile_imp hc
            simpa using this
        · intro p hp c hc
          split at hp
          · rename_i p2 hdp
            obtain rfl := Option.some_inj.mp hp
            have hcs : c ∈ (r.takeWhile (fun c => ¬ isAuthEnd c)).dropWhile
                (fun c => c ≠ ':') := by
              rw [hdp]
              exact List.mem_cons_of_mem _ hc
            have hca : c ∈ r.takeWhile (fun c => ¬ isAuthEnd c) :=
              (List.dropWhile_sublist _).subset hcs
            have := List.mem_takeWhile_imp hca
            simpa using this
          · exact absurd hp (by simp)
        · by_cases hp0 : (((r.dropWhile (fun c => ¬ isAuthEnd c)).takeWhile
              (fun c => c ≠ '#')).takeWhile (fun c => c ≠ '?')).isEmpty
          · rw [if_pos hp0]
            rfl
          · rw [if_neg hp0]
            cases hh : (((r.dropWhile (fun c => ¬ isAuthEnd c)).takeWhile
                (fun c => c ≠ '#')).takeWhile (fun c => c ≠ '?')).head? with
            | none =>
              rw [List.head?_eq_none_iff] at hh
              rw [hh] at hp0
              simp at hp0
            | some c0 =>
              have hq : c0 ≠ '?' := by
                have hm : c0 ∈ ((r.dropWhile (fun c => ¬ isAuthEnd c)).takeWhile
                    (fun c => c ≠ '#')).takeWhile (fun c => c ≠ '?') :=
                  List.mem_of_mem_head? hh
                have := List.mem_takeWhile_imp hm
                simpa using this
              have hsh : c0 ≠ '#' := by
                have hm : c0 ∈ (r.dropWhile (fun c => ¬ isAuthEnd c)).takeWhile
                    (fun c => c ≠ '#') :=
                  (List.takeWhile_sublist _).subset
                    (List.mem_of_mem_head? hh)
                have := List.mem_takeWhile_imp hm
                simpa using this
              have hae : isAuthEnd c0 = true := by
                have h2 := head?_takeWhile _ _ _ hh
                have h3 := head?_takeWhile _ _ _ h2
                have := head?_dropWhile_not (fun c => ¬ isAuthEnd c) r c0 h3
                simpa using this
              have : c0 = '/' := by
                rcases isAuthEnd_cases c0 hae with h | h | h
                · exact h
                · exact absurd h hq
                · exact absurd h hsh
              rw [this]
        · intro c hc
          by_cases hp0 : (((r.dropWhile (fun c => ¬ isAuthEnd c)).takeWhile
              (fun c => c ≠ '#')).takeWhile (fun c => c ≠ '?')).isEmpty
          · rw [if_pos hp0] at hc
            rcases List.mem_singleton.mp hc with rfl
            exact ⟨by decide, by decide⟩
          · rw [if_neg hp0] at hc
            constructor
            · have := List.mem_takeWhile_imp hc
              simpa using this
            · have hm : c ∈ (r.dropWhile (fun c => ¬ isAuthEnd c)).takeWhile
                  (fun c => c ≠ '#') :=
                (List.takeWhile_sublist _).subset hc
              have := List.mem_takeWhile_imp hm
              simpa using this
        · intro q hq c hc
          have hq2 : (match ((r.dropWhile (fun c => ¬ isAuthEnd c)).takeWhile
                (fun c => c ≠ '#')).dropWhile (fun c => c ≠ '?') with
            | '?' :: q => some q
            | _ => none) = some q := hq
          split at hq2
          · rename_i q2 hdq
            obtain rfl := Option.some_inj.mp hq2
            have hcs : c ∈ ((r.dropWhile (fun c => ¬ isAuthEnd c)).takeWhile
                (fun c => c ≠ '#')).dropWhile (fun c => c ≠ '?') := by
              rw [hdq]
              exact List.mem_cons_of_mem _ hc
            have hm : c ∈ (r.dropWhile (fun c => ¬ isAuthEnd c)).takeWhile
                (fun c => c ≠ '#') :=
              (List.dropWhile_sublist _).subset hcs
            have := List.mem_takeWhile_imp hm
            simpa using this
          · exact absurd hq2 (by simp)
    · exact absurd h (by simp)

theorem parse_serialize (u : UrlM) (h : WfUrl u) :
    parseUrl (serializeUrl u) = some u := by
  obtain ⟨h1, h2, h3, h4, h5, h6, h7, h8⟩ := h
  obtain ⟨sch, host, port, path, rawQuery, frag⟩ := u
  simp only at h1 h2 h3 h4 h5 h6 h7 h8
  cases path with
  | nil => simp at h6
  | cons p0 pt =>
  have hp0 : p0 = '/' := by simpa using h6
  subst hp0
  have hser : serializeUrl ⟨sch, host, port, '/' :: pt, rawQuery, frag⟩
      = sch ++ (':' :: '/' :: '/' :: (host ++ (portStr port ++
          (('/' :: pt) ++ (queryStr rawQuery ++ fragStr frag))))) := by
    simp [serializeUrl]
  rw [hser]
  have hcolon : isSchemeChar ':' = false := by decide
  have htk : (sch ++ (':' :: '/' :: '/' :: (host ++ (portStr port ++
      (('/' :: pt) ++ (queryStr rawQuery ++ fragStr frag)))))).takeWhile
        isSchemeChar = sch := by
    rw [takeWhile_append_all _ _ _ h2, takeWhile_cons_neg _ _ _ hcolon]
    simp
  have hdr : (sch ++ (':' :: '/' :: '/' :: (host ++ (portStr port ++
      (('/' :: pt) ++ (queryStr rawQuery ++ fragStr frag)))))).dropWhile
        isSchemeChar
      = ':' :: '/' :: '/' :: (host ++ (portStr port ++
          (('/' :: pt) ++ (queryStr rawQuery ++ fragStr frag)))) := by
    rw [dropWhile_append_all _ _ _ h2, dropWhile_cons_neg _ _ _ hcolon]
  rw [parseUrl]
  simp only [htk, hdr]
  rw [if_neg (by simpa [List.isEmpty_iff] using h1)]
  have hPall : ∀ c ∈ portStr port, (fun c => decide (¬ isAuthEnd c = true)) c
      = true := by
    intro c hc
    cases hport : port with
    | none => rw [hport] at hc; simp [portStr] at hc
    | some p =>
      rw [hport] at hc
      rw [show portStr (some p) = ':' :: p from rfl] at hc
      rcases List.mem_cons.mp hc with h | h
      · subst h; decide
      · simpa using h5 p hport c h
  have hHall : ∀ c ∈ host, (fun c => decide (¬ isAuthEnd c = true)) c = true := by
    intro c hc
    simpa using (h4 c hc).1
  have hTake1 : (host ++ (portStr port ++ (('/' :: pt) ++
      (queryStr rawQuery ++ fragStr frag)))).takeWhile
      (fun c => decide (¬ isAuthEnd c = true)) = host ++ portStr port := by
    rw [takeWhile_append_all _ _ _ hHall, takeWhile_append_all _ _ _ hPall,
      List.cons_append,
      takeWhile_cons_neg (fun c => decide (¬ isAuthEnd c = true)) '/' _ (by decide)]
    simp
  have hDrop1 : (host ++ (portStr port ++ (('/' :: pt) ++
      (queryStr rawQuery ++ fragStr frag)))).dropWhile
      (fun c => decide (¬ isAuthEnd c = true))
      = ('/' :: pt) ++ (queryStr rawQuery ++ fragStr frag) := by
    rw [dropWhile_append_all _ _ _ hHall, dropWhile_append_all _ _ _ hPall,
      List.cons_append,
      dropWhile_cons_neg (fun c => decide (¬ isAuthEnd c = true)) '/' _ (by decide)]
  simp only [hTake1, hDrop1]
  have hHne : ∀ c ∈ host, (fun c => decide (c ≠ ':')) c = true := by
    intro c hc
    simpa using (h4 c hc).2
  have hTake2 : (host ++ portStr port).takeWhile (fun c => decide (c ≠ ':'))
      = host := by
    cases hport : port with
    | none =>
      rw [show portStr none = [] from rfl, List.append_nil]
      exact takeWhile_all _ _ hHne
    | some p =>
      rw [show portStr (some p) = ':' :: p from rfl,
        takeWhile_append_all _ _ _ hHne,
        takeWhile_cons_neg (fun c => decide (c ≠ ':')) ':' _ (by decide)]
      simp
  have hDrop2 : (host ++ portStr port).dropWhile (fun c => decide (c ≠ ':'))
      = portStr port := by
    cases hport : port with
    | none =>
      rw [show portStr none = [] from rfl, List.append_nil]
      exact dropWhile_all _ _ hHne
    | some p =>
      rw [show portStr (some p) = ':' :: p from rfl,
        dropWhile_append_all _ _ _ hHne,
        dropWhile_cons_neg (fun c => decide (c ≠ ':')) ':' _ (by decide)]
  simp only [hTake2, hDrop2]
  rw [if_neg (by simpa [List.isEmpty_iff] using h3)]
  have hPathHash : ∀ c ∈ '/' :: pt, (fun c => decide (c ≠ '#')) c = true := by
    intro c hc
    simpa using (h7 c hc).2
  have hQall : ∀ c ∈ queryStr rawQuery, (fun c => decide (c ≠ '#')) c = true := by
    intro c hc
    cases hq : rawQuery with
    | none => rw [hq] at hc; simp [queryStr] at hc
    | some q =>
      rw [hq] at hc
      rw [show queryStr (some q) = '?' :: q from rfl] at hc
      rcases List.mem_cons.mp hc with h | h
      · subst h; decide
      · simpa using h8 q hq c h
  have hTake3 : (('/' :: pt) ++ (queryStr rawQuery ++ fragStr frag)).takeWhile
      (fun c => decide (c ≠ '#')) = ('/' :: pt) ++ queryStr rawQuery := by
    rw [takeWhile_append_all _ _ _ hPathHash, takeWhile_append_all _ _ _ hQall]
    cases hf : frag with
    | none =>
      rw [show fragStr none = [] from rfl]
      simp
    | some f =>
      rw [show fragStr (some f) = '#' :: f from rfl,
        takeWhile_cons_neg (fun c => decide (c ≠ '#')) '#' _ (by decide)]
      simp
  have hDrop3 : (('/' :: pt) ++ (queryStr rawQuery ++ fragStr frag)).dropWhile
      (fun c => decide (c ≠ '#')) = fragStr frag := by
    rw [dropWhile_append_all _ _ _ hPathHash, dropWhile_append_all _ _ _ hQall]
    cases hf : frag with
    | none => rw [show fragStr none = [] from rfl]; rfl
    | some f =>
      rw [show fragStr (some f) = '#' :: f from rfl,
        dropWhile_cons_neg (fun c => decide (c ≠ '#')) '#' _ (by decide)]
  simp only [hTake3, hDrop3]
  have hPathQ : ∀ c ∈ '/' :: pt, (fun c => decide (c ≠ '?')) c = true := by
    intro c hc
    simpa using (h7 c hc).1
  have hTake4 : (('/' :: pt) ++ queryStr rawQuery).takeWhile
      (fun c => decide (c ≠ '?')) = '/' :: pt := by
    rw [takeWhile_append_all _ _ _ hPathQ]
    cases hq : rawQuery with
    | none => rw [show queryStr none = [] from rfl]; simp
    | some q =>
      rw [show queryStr (some q) = '?' :: q from rfl,
        takeWhile_cons_neg (fun c => decide (c ≠ '?')) '?' _ (by decide)]
      simp
  have hDrop4 : (('/' :: pt) ++ queryStr rawQuery).dropWhile
      (fun c => decide (c ≠ '?')) = queryStr rawQuery := by
    rw [dropWhile_append_all _ _ _ hPathQ]
    cases hq : rawQuery with
    | none => rw [show queryStr none = [] from rfl]; rfl
    | some q =>
      rw [show queryStr (some q) = '?' :: q from rfl,
        dropWhile_cons_neg (fun c => decide (c ≠ '?')) '?' _ (by decide)]
  simp only [hTake4, hDrop4]
  rw [if_neg (by simp)]
  have hport2 : (match portStr port with
      | ':' :: p => some p
      | _ => none) = port := by
    cases hport : port with
    | none => rfl
    | some p => rfl
  have hq2 : (match queryStr rawQuery with
      | '?' :: q => some q
      | _ => none) = rawQuery := by
    cases hq : rawQuery with
    | none => rfl
    | some q => rfl
  have hf2 : (match fragStr frag with
      | '#' :: f => some f
      | _ => none) = frag := by
    cases hf : frag with
    | none => rfl
    | some f => rfl
  simp only [hport2, hq2, hf2]

theorem ne_hash_of_not_authEnd {c : Char} (h : isAuthEnd c = false) : c ≠ '#' := by
  intro hc
  subst hc
  simp [isAuthEnd] at h

theorem ne_qmark_of_not_authEnd {c : Char} (h : isAuthEnd c = false) : c ≠ '?' := by
  intro hc
  subst hc
  simp [isAuthEnd] at h

theorem wf_spSet (u : UrlM) (k v : List Char) (hu : WfUrl u)
    (hk : ∀ c ∈ k, c ≠ '#') (hv : ∀ c ∈ v, c ≠ '#') : WfUrl (spSet u k v) := by
  obtain ⟨h1, h2, h3, h4, h5, h6, h7, h8⟩ := hu
  have hpair : ∀ p ∈ pairsOf u, (∀ c ∈ p.1, c ≠ '#') ∧ (∀ c ∈ p.2, c ≠ '#') := by
    intro p hp
    unfold pairsOf at hp
    cases hq : u.rawQuery with
    | none => rw [hq] at hp; simp at hp
    | some q =>
      rw [hq] at hp
      obtain ⟨hq1, hq2⟩ := mem_queryPairs q p hp
      exact ⟨fun c hc => h8 q hq c (hq1 c hc), fun c hc => h8 q hq c (hq2 c hc)⟩
  refine ⟨h1, h2, h3, h4, h5, h6, h7, ?_⟩
  intro q hq c hc
  have hq2 : q = serializePairs (if (pairsOf u).any (fun p => p.1 == k)
      then setFirstPair k v (pairsOf u) else pairsOf u ++ [(k, v)]) := by
    simpa [spSet] using hq.symm
  subst hq2
  rcases mem_serializePairs _ c hc with ⟨p, hp, hcp⟩ | hc2
  · have hpk : p = (k, v) ∨ p ∈ pairsOf u := by
      by_cases hany : (pairsOf u).any (fun p => p.1 == k)
      · rw [if_pos hany] at hp
        exact mem_setFirstPair k v _ p hp
      · rw [if_neg hany] at hp
        rcases List.mem_append.mp hp with h | h
        · exact Or.inr h
        · exact Or.inl (List.mem_singleton.mp h)
    rcases hpk with rfl | hpm
    · rcases hcp with h | h
      · exact hk c h
      · exact hv c h
    · rcases hcp with h | h
      · exact (hpair p hpm).1 c h
      · exact (hpair p hpm).2 c h
  · rcases hc2 with rfl | rfl <;> decide

theorem pagePathAt_sub (s : List Char) (pr : List Char × List Char)
    (h : pagePathAt s = some pr) : ∀ c ∈ pr.2, c ∈ s := by
  intro c hc
  unfold pagePathAt at h
  split at h
  · simp at h
  · rename_i c0 rest
    by_cases hc0 : c0 = '/'
    · rw [if_pos hc0] at h
      split at h
      · rename_i d r3 hm
        split at h
        · split at h
          · rename_i hd ds hds
            obtain rfl := Option.some_inj.mp h
            have hsub : c ∈ r3 := List.drop_subset _ _ hc
            have hsfx : (d :: r3) <:+ rest := matchCI_suffix _ rest (d :: r3) hm
            obtain ⟨w, hw⟩ := hsfx
            have hcr : c ∈ rest := by
              rw [← hw]
              exact List.mem_append_right w (List.mem_cons_of_mem _ hsub)
            exact List.mem_cons_of_mem _ hcr
          · simp at h
        · simp at h
      · simp at h
    · rw [if_neg hc0] at h
      simp at h

theorem mem_replPagePath (n : Nat) :
    ∀ (path p2 : List Char), replPagePath n path = some p2 →
      ∀ c ∈ p2, c ∈ path ∨ c ∈ "/page/".toList ∨ c ∈ numToStr n := by
  intro path
  induction path with
  | nil => intro p2 h; simp [replPagePath] at h
  | cons c0 rest ih =>
    intro p2 h c hc
    rw [replPagePath] at h
    cases hpp : pagePathAt (c0 :: rest) with
    | some pr =>
      obtain ⟨ds, after⟩ := pr
      rw [hpp] at h
      obtain rfl := Option.some_inj.mp h
      rcases List.mem_append.mp hc with h1 | h1
      · rcases List.mem_append.mp h1 with h2 | h2
        · exact Or.inr (Or.inl h2)
        · exact Or.inr (Or.inr h2)
      · exact Or.inl (pagePathAt_sub _ _ hpp c h1)
    | none =>
      rw [hpp] at h
      cases hrec : replPagePath n rest with
      | none => rw [hrec] at h; simp at h
      | some r =>
        rw [hrec] at h
        obtain rfl := Option.some_inj.mp h
        rcases List.mem_cons.mp hc with h1 | h1
        · exact Or.inl (h1 ▸ List.mem_cons_self _ _)
        · rcases ih r hrec c h1 with h2 | h2
          · exact Or.inl (List.mem_cons_of_mem _ h2)
          · exact Or.inr h2

theorem head_replPagePath (n : Nat) (path p2 : List Char)
    (hh : path.head? = some '/') (h : replPagePath n path = some p2) :
    p2.head? = some '/' := by
  cases path with
  | nil => simp at hh
  | cons c0 rest =>
    have hc0 : c0 = '/' := by simpa using hh
    subst hc0
    rw [replPagePath] at h
    cases hpp : pagePathAt ('/' :: rest) with
    | some pr =>
      obtain ⟨ds, after⟩ := pr
      rw [hpp] at h
      obtain rfl := Option.some_inj.mp h
      rfl
    | none =>
      rw [hpp] at h
      cases hrec : replPagePath n rest with
      | none => rw [hrec] at h; simp at h
      | some r =>
        rw [hrec] at h
        obtain rfl := Option.some_inj.mp h
        rfl

theorem mem_replNumHtml (n : Nat) :
    ∀ (path p2 : List Char), replNumHtml n path = some p2 →
      ∀ c ∈ p2, c ∈ path ∨ c ∈ numToStr n ∨ c ∈ ".html".toList := by
  intro path
  induction path with
  | nil => intro p2 h; simp [replNumHtml] at h
  | cons c0 rest ih =>
    intro p2 h c hc
    rw [replNumHtml] at h
    cases hnh : numHtmlAt (c0 :: rest) with
    | some ds =>
      rw [hnh] at h
      obtain rfl := Option.some_inj.mp h
      rcases List.mem_append.mp hc with h1 | h1
      · exact Or.inr (Or.inl h1)
      · exact Or.inr (Or.inr h1)
    | none =>
      rw [hnh] at h
      cases hrec : replNumHtml n rest with
      | none => rw [hrec] at h; simp at h
      | some r =>
        rw [hrec] at h
        obtain rfl := Option.some_inj.mp h
        rcases List.mem_cons.mp hc with h1 | h1
        · exact Or.inl (h1 ▸ List.mem_cons_self _ _)
        · rcases ih r hrec c h1 with h2 | h2
          · exact Or.inl (List.mem_cons_of_mem _ h2)
          · exact Or.inr h2

theorem head_replNumHtml (n : Nat) (path p2 : List Char)
    (hh : path.head? = some '/') (h : replNumHtml n path = some p2) :
    p2.head? = some '/' := by
  cases path with
  | nil => simp at hh
  | cons c0 rest =>
    have hc0 : c0 = '/' := by simpa using hh
    subst hc0
    rw [replNumHtml] at h
    have hnh : numHtmlAt ('/' :: rest) = none := by
      unfold numHtmlAt digitsAt takeDigits
      simp [List.takeWhile_cons, Char.isDigit]
    rw [hnh] at h
    cases hrec : replNumHtml n rest with
    | none => rw [hrec] at h; simp at h
    | some r =>
      rw [hrec] at h
      obtain rfl := Option.some_inj.mp h
      rfl

theorem mem_replUnderscoreHtml (n : Nat) :
    ∀ (path p2 : List Char), replUnderscoreHtml n path = some p2 →
      ∀ c ∈ p2, c ∈ path ∨ c = '_' ∨ c ∈ numToStr n ∨ c ∈ ".html".toList := by
  intro path
  induction path with
  | nil => intro p2 h; simp [replUnderscoreHtml] at h
  | cons c0 rest ih =>
    intro p2 h c hc
    rw [replUnderscoreHtml] at h
    cases hnh : underscoreNumHtmlAt (c0 :: rest) with
    | some ds =>
      rw [hnh] at h
      obtain rfl := Option.some_inj.mp h
      rcases List.mem_cons.mp hc with h1 | h1
      · exact Or.inr (Or.inl h1)
      · rcases List.mem_append.mp h1 with h2 | h2
        · exact Or.inr (Or.inr (Or.inl h2))
        · exact Or.inr (Or.inr (Or.inr h2))
    | none =>
      rw [hnh] at h
      cases hrec : replUnderscoreHtml n rest with
      | none => rw [hrec] at h; simp at h
      | some r =>
        rw [hrec] at h
        obtain rfl := Option.some_inj.mp h
        rcases List.mem_cons.mp hc with h1 | h1
        · exact Or.inl (h1 ▸ List.mem_cons_self _ _)
        · rcases ih r hrec c h1 with h2 | h2
          · exact Or.inl (List.mem_cons_of_mem _ h2)
          · exact Or.inr h2

theorem head_replUnderscoreHtml (n : Nat) (path p2 : List Char)
    (hh : path.head? = some '/') (h : replUnderscoreHtml n path = some p2) :
    p2.head? = some '/' := by
  cases path with
  | nil => simp at hh
  | cons c0 rest =>
    have hc0 : c0 = '/' := by simpa using hh
    subst hc0
    rw [replUnderscoreHtml] at h
    have hnh : underscoreNumHtmlAt ('/' :: rest) = none := by
      unfold underscoreNumHtmlAt
      simp
    rw [hnh] at h
    cases hrec : replUnderscoreHtml n rest with
    | none => rw [hrec] at h; simp at h
    | some r =>
      rw [hrec] at h
      obtain rfl := Option.some_inj.mp h
      rfl

theorem wf_construct_aux (p : UrlM) (hwf : WfUrl p) (p2 : List Char)
    (hhead : p2.head? = some '/')
    (hchars : ∀ c ∈ p2, c ≠ '?' ∧ c ≠ '#') :
    WfUrl { p with path := p2 } := by
  obtain ⟨h1, h2, h3, h4, h5, h6, h7, h8⟩ := hwf
  exact ⟨h1, h2, h3, h4, h5, hhead, hchars, h8⟩

theorem wf_spSet_num (p : UrlM) (hwf : WfUrl p) (k : List Char) (n : Nat)
    (hk : ∀ c ∈ k, c ≠ '#') : WfUrl (spSet p k (numToStr n)) :=
  wf_spSet p k (numToStr n) hwf hk
    (fun c hc => ne_hash_of_not_authEnd (numToStr_safe n c hc))

/-- `constructNextPageUrl` only rewrites the query string or the path:
when it succeeds on a parseable URL, its output parses to a URL with the
same scheme and hostname. -/
theorem construct_same_host (url : List Char) (cp np : Nat) (out : List Char)
    (p : UrlM) (hcon : constructNextPageUrl url cp np = some out)
    (hp : parseUrl url = some p) :
    ∃ q, parseUrl out = some q ∧ q.scheme = p.scheme ∧ q.host = p.host := by
  have hwf : WfUrl p := parseUrl_wf url p hp
  unfold constructNextPageUrl at hcon
  rw [hp] at hcon
  have hcon2 : (if spHas p "chapterNumber".toList then
      some (serializeUrl (spSet p "chapterNumber".toList (numToStr np)))
    else if spHas p "page".toList then
      some (serializeUrl (spSet p "page".toList (numToStr np)))
    else
      match replPagePath np p.path with
      | some p2 => some (serializeUrl { p with path := p2 })
      | none =>
      match replNumHtml np p.path with
      | some p2 => some (serializeUrl { p with path := p2 })
      | none =>
      match replUnderscoreHtml np p.path with
      | some p2 => some (serializeUrl { p with path := p2 })
      | none =>
        if cp = 1 ∧ ¬ spHas p "page".toList
            ∧ ¬ spHas p "chapterNumber".toList then
          some (serializeUrl (spSet p "page".toList (numToStr np)))
        else none) = some out := hcon
  by_cases h1 : spHas p "chapterNumber".toList
  · rw [if_pos h1] at hcon2
    obtain rfl := Option.some_inj.mp hcon2
    have hwf2 := wf_spSet_num p hwf "chapterNumber".toList np (by decide)
    exact ⟨_, parse_serialize _ hwf2, rfl, rfl⟩
  · rw [if_neg h1] at hcon2
    by_cases h2 : spHas p "page".toList
    · rw [if_pos h2] at hcon2
      obtain rfl := Option.some_inj.mp hcon2
      have hwf2 := wf_spSet_num p hwf "page".toList np (by decide)
      exact ⟨_, parse_serialize _ hwf2, rfl, rfl⟩
    · rw [if_neg h2] at hcon2
      obtain ⟨w1, w2, w3, w4, w5, w6, w7, w8⟩ := hwf
      cases hr1 : replPagePath np p.path with
      | some p2 =>
        rw [hr1] at hcon2
        obtain rfl := Option.some_inj.mp hcon2
        have hch : ∀ c ∈ p2, c ≠ '?' ∧ c ≠ '#' := by
          intro c hc
          rcases mem_replPagePath np p.path p2 hr1 c hc with h | h | h
          · exact w7 c h
          · have hlit : ∀ c ∈ "/page/".toList, c ≠ '?' ∧ c ≠ '#' := by decide
            exact hlit c h
          · exact ⟨ne_qmark_of_not_authEnd (numToStr_safe np c h),
              ne_hash_of_not_authEnd (numToStr_safe np c h)⟩
        have hwf2 := wf_construct_aux p ⟨w1, w2, w3, w4, w5, w6, w7, w8⟩ p2
          (head_replPagePath np p.path p2 w6 hr1) hch
        exact ⟨_, parse_serialize _ hwf2, rfl, rfl⟩
      | none =>
        rw [hr1] at hcon2
        cases hr2 : replNumHtml np p.path with
        | some p2 =>
          rw [hr2] at hcon2
          obtain rfl := Option.some_inj.mp hcon2
          have hch : ∀ c ∈ p2, c ≠ '?' ∧ c ≠ '#' := by
            intro c hc
            rcases mem_replNumHtml np p.path p2 hr2 c hc with h | h | h
            · exact w7 c h
            · exact ⟨ne_qmark_of_not_authEnd (numToStr_safe np c h),
                ne_hash_of_not_authEnd (numToStr_safe np c h)⟩
            · have hlit : ∀ c ∈ ".html".toList, c ≠ '?' ∧ c ≠ '#' := by decide
              exact hlit c h
          have hwf2 := wf_construct_aux p ⟨w1, w2, w3, w4, w5, w6, w7, w8⟩ p2
            (head_replNumHtml np p.path p2 w6 hr2) hch
          exact ⟨_, parse_serialize _ hwf2, rfl, rfl⟩
        | none =>
          rw [hr2] at hcon2
          cases hr3 : replUnderscoreHtml np p.path with
          | some p2 =>
            rw [hr3] at hcon2
            obtain rfl := Option.some_inj.mp hcon2
            have hch : ∀ c ∈ p2, c ≠ '?' ∧ c ≠ '#' := by
              intro c hc
              rcases mem_replUnderscoreHtml np p.path p2 hr3 c hc
                with h | h | h | h
              · exact w7 c h
              · subst h; exact ⟨by decide, by decide⟩
              · exact ⟨ne_qmark_of_not_authEnd (numToStr_safe np c h),
                  ne_hash_of_not_authEnd (numToStr_safe np c h)⟩
              · have hlit : ∀ c ∈ ".html".toList, c ≠ '?' ∧ c ≠ '#' := by decide
                exact hlit c h
            have hwf2 := wf_construct_aux p ⟨w1, w2, w3, w4, w5, w6, w7, w8⟩
              p2 (head_replUnderscoreHtml np p.path p2 w6 hr3) hch
            exact ⟨_, parse_serialize _ hwf2, rfl, rfl⟩
          | none =>
            rw [hr3] at hcon2
            by_cases h4 : cp = 1 ∧ ¬ spHas p "page".toList
                ∧ ¬ spHas p "chapterNumber".toList
            · rw [if_pos h4] at hcon2
              obtain rfl := Option.some_inj.mp hcon2
              have hwf2 := wf_spSet_num p ⟨w1, w2, w3, w4, w5, w6, w7, w8⟩
                "page".toList np (by decide)
              exact ⟨_, parse_serialize _ hwf2, rfl, rfl⟩
            · rw [if_neg h4] at hcon2
              exact absurd hcon2 (by simp)

/-! ### Helper lemmas and fixtures for the claim theorems -/

theorem scrapePost_trace (env : Env) (res : CrawlSt × Option ErrMsg) :
    (scrapePost env res).2 = res.1.trace := by
  rcases res with ⟨st, err⟩
  cases err with
  | some e => rfl
  | none =>
    show (if st.fullContent = [] ∨ st.fullContent.length < 50 then
        ((Except.error extractionErrorMsg : Except ErrMsg ScrapedNovel), st.trace)
      else (Except.ok (finalizeNovel env st.title st.fullContent), st.trace)).2
      = st.trace
    split <;> rfl

theorem scrapePost_ok (env : Env) (st : CrawlSt)
    (h : ¬ (st.fullContent = [] ∨ st.fullContent.length < 50)) :
    (scrapePost env (st, none)).1
      = .ok (finalizeNovel env st.title st.fullContent) := by
  show (if st.fullContent = [] ∨ st.fullContent.length < 50 then
      ((Except.error extractionErrorMsg : Except ErrMsg ScrapedNovel), st.trace)
    else (Except.ok (finalizeNovel env st.title st.fullContent), st.trace)).1
    = Except.ok (finalizeNovel env st.title st.fullContent)
  rw [if_neg h]

/-- The content container of the spec scenario, on its own. -/
def contentDiv : Dom :=
  Dom.elem "div".toList [("class".toList, "content".toList)]
    [Dom.elem "p".toList [] [Dom.text "Hello".toList],
     Dom.elem "p".toList [] [Dom.text "World".toList]]

/-- Environment that serves `mockPage` for every URL. -/
def mockEnv : Env :=
  ⟨fun _ => .ok mockPage, fun _ _ => none, fun t => t⟩

/-- A page whose only extractable text is 40 characters long. -/
def dom40 : Dom :=
  Dom.elem "html".toList []
    [Dom.elem "head".toList [] [],
     Dom.elem "body".toList [] [Dom.text (List.replicate 40 'a')]]

/-- Environment that serves `dom40` for every URL. -/
def env40 : Env :=
  ⟨fun _ => .ok dom40, fun _ _ => none, fun t => t⟩

/-- Environment whose every fetch throws. -/
def errEnv : Env :=
  ⟨fun _ => .error "boom".toList, fun _ _ => none, fun t => t⟩

/-- A mid-crawl state holding 120 characters of gathered content. -/
def stBig : CrawlSt :=
  ⟨some "http://x.com/c?page=2".toList, List.replicate 120 'a', "T".toList,
   ["http://x.com/c?page=1".toList], 1, ["http://x.com/c?page=1".toList]⟩

/-- The parse of `http://x.com/c/1?page=1`. -/
def u1c : UrlM :=
  ⟨"http".toList, "x.com".toList, none, "/c/1".toList, some "page=1".toList, none⟩

/-- The parse of `http://x.com/c/1?page=2`. -/
def u2c : UrlM :=
  ⟨"http".toList, "x.com".toList, none, "/c/1".toList, some "page=2".toList, none⟩

/-- The parse of `http://x.com/c?page=1`. -/
def urlP : UrlM :=
  ⟨"http".toList, "x.com".toList, none, "/c".toList, some "page=1".toList, none⟩

/-- A page with no h1 and no title element but an og:title of Foo. -/
def ogPage : Dom :=
  Dom.elem "html".toList []
    [Dom.elem "head".toList []
       [Dom.elem "meta".toList
          [("property".toList, "og:title".toList),
           ("content".toList, "Foo".toList)] []],
     Dom.elem "body".toList [] [Dom.elem "p".toList [] [Dom.text "x".toList]]]

example : parseUrl "http://x.com/c/1?page=1".toList = some u1c := by decide
example : parseUrl "http://x.com/c/1?page=2".toList = some u2c := by decide
example : parseUrl "http://x.com/c?page=1".toList = some urlP := by decide

/-! ### The claims -/

set_option maxRecDepth 2000 in
/-- C1: the claim says block-level boundaries become paragraph breaks, so the
spec scenario page should yield content `"Hello\n\nWorld"`.  In the live code
`extractTextWithParagraphs` only rewrites `<br>` tags, so adjacent `<p>`
elements run together: the mock page extracts as `"Chapter OneHelloWorld"`
(not `"Hello\n\nWorld"`), and the 21-character result then trips the
50-character gate, so the single-page scrape of the scenario throws the
extraction error instead of returning the document. -/
theorem c1_block_breaks_lost :
    extractTextWithParagraphs contentDiv = "HelloWorld".toList
    ∧ (extractPageContent mockPage).title = "Chapter One".toList
    ∧ (extractPageContent mockPage).content = "Chapter OneHelloWorld".toList
    ∧ (extractPageContent mockPage).content ≠ "Hello\n\nWorld".toList
    ∧ scrapeNovel mockEnv "https://example.com/novel/ch1".toList none
        = .error extractionErrorMsg := by
  refine ⟨by decide, by decide, by decide, by decide, by rfl⟩

/-- C2: the text normalizer is idempotent: `cleanContent (cleanContent s) =
cleanContent s` for every string `s`. -/
theorem c2_cleanContent_idempotent (s : List Char) :
    cleanContent (cleanContent s) = cleanContent s :=
  cleanContent_fix_canon s

/-- C3 counterexample: the claim puts the exclusive-set probes first, so any
text with a Traditional-exclusive character and no Simplified-exclusive one
should classify as not Simplified.  The text `这这繁` contains the
Traditional-exclusive `繁` and no Simplified-exclusive character, yet
`isSimplifiedChinese` returns `true`, because the code runs the broad count
comparison before either probe. -/
theorem c3_cascade_counterexample :
    testClass simplifiedOnly "这这繁".toList = false
    ∧ testClass traditionalOnly "这这繁".toList = true
    ∧ isSimplifiedChinese "这这繁".toList = true := by
  refine ⟨by decide, by decide, by decide⟩

/-- C3 (amended): the broad-marker count comparison runs first; only when it
is not already decisive (Simplified count not strictly higher) do the
exclusive probes fire.  Under that extra hypothesis, a text with a
Traditional-exclusive character and no Simplified-exclusive character is
classified as not Simplified. -/
theorem c3_exclusive_after_counts (text : List Char)
    (hc : countClass simplifiedChars text ≤ countClass traditionalChars text)
    (hs : testClass simplifiedOnly text = false)
    (ht : testClass traditionalOnly text = true) :
    isSimplifiedChinese text = false := by
  unfold isSimplifiedChinese
  have h1 : ¬ countClass simplifiedChars text > countClass traditionalChars text := by
    omega
  have h2 : ¬ testClass simplifiedOnly text = true := by simp [hs]
  rw [if_neg h1, if_neg h2, if_pos ht]

/-- C3 witness: the amended theorem applied to the text `繁`. -/
theorem c3_exclusive_after_counts_witness :
    (countClass simplifiedChars "繁".toList ≤ countClass traditionalChars "繁".toList
      ∧ testClass simplifiedOnly "繁".toList = false
      ∧ testClass traditionalOnly "繁".toList = true)
    ∧ isSimplifiedChinese "繁".toList = false :=
  ⟨⟨by decide, by decide, by decide⟩,
   c3_exclusive_after_counts "繁".toList (by decide) (by decide) (by decide)⟩

set_option maxRecDepth 4000 in
/-- C4 counterexample: the claim says ANY artificially cyclic chain with
`maxPages = 5` performs exactly 5 fetches.  On a chain whose next-page link
points straight back at the current page the visited-set guard stops the
crawl after a single fetch (which still succeeds). -/
theorem c4_cyclic_counterexample :
    (scrapeNovelT selfLoopEnv "http://x.com/c?page=1".toList (some 5)).2.length = 1
    ∧ (scrapeNovelT selfLoopEnv "http://x.com/c?page=1".toList (some 5)).1.isOk
        = true := by
  refine ⟨by decide, by decide⟩

set_option maxRecDepth 4000 in
/-- C4 (amended): for every positive requested `pageCount` the route performs
at most `min pageCount 500` fetches (values over 500 are clamped), and on an
infinite chain of pairwise distinct pages with `maxPages = 5` the crawl
performs exactly 5 fetches and succeeds; a cyclic chain may stop earlier
once the next link hits an already-visited URL. -/
theorem c4_crawl_cap (env : Env) (url : List Char) (pc : Int) (h : 0 < pc) :
    (routeScrape env url pc).2.length ≤ (min pc 500).toNat
    ∧ (scrapeNovelT chainEnv "http://x.com/c?page=1".toList (some 5)).2.length = 5
    ∧ (scrapeNovelT chainEnv "http://x.com/c?page=1".toList (some 5)).1.isOk
        = true := by
  refine ⟨?_, by decide, by decide⟩
  unfold routeScrape routeMaxPages
  rw [if_pos h]
  have hle : ¬ (min pc 500 ≤ 0) := by
    simp only [not_le, lt_min_iff]
    exact ⟨h, by omega⟩
  have hstep : scrapeNovelT env url (some (min pc 500))
      = if (min pc 500) ≤ 0 then (scrapeSingle env url, [url])
        else scrapeMultiT env url (min pc 500).toNat := rfl
  rw [hstep, if_neg hle]
  have hmul : scrapeMultiT env url (min pc 500).toNat
      = scrapePost env (crawlLoop env (min pc 500).toNat url (min pc 500).toNat
          ⟨some url, [], [], [], 0, []⟩) := rfl
  rw [hmul, scrapePost_trace]
  have hb := crawlLoop_trace_bound env (min pc 500).toNat url (min pc 500).toNat
    ⟨some url, [], [], [], 0, []⟩
  simpa using hb

set_option maxRecDepth 4000 in
/-- C4 witness: the amended bound applied to the chain environment with a
requested page count of 7. -/
theorem c4_crawl_cap_witness :
    (0 : Int) < 7
    ∧ ((routeScrape chainEnv "http://x.com/c?page=1".toList 7).2.length
        ≤ (min (7 : Int) 500).toNat
      ∧ (scrapeNovelT chainEnv "http://x.com/c?page=1".toList (some 5)).2.length = 5
      ∧ (scrapeNovelT chainEnv "http://x.com/c?page=1".toList (some 5)).1.isOk
          = true) :=
  ⟨by decide, c4_crawl_cap chainEnv "http://x.com/c?page=1".toList 7 (by decide)⟩

/-- C5: once the fetch and parse of the (single-mode) page succeeded, the
scrape fails with the extraction error exactly when the extracted content is
shorter than 50 characters, and returns the document otherwise; and in
multi-page mode the post-loop gate applies the same 50-character minimum to
the merged buffer. -/
theorem c5_min_length_gate (env : Env) (url : List Char) (dom : Dom)
    (hf : env.fetchParsed url = .ok dom) :
    (scrapeNovel env url none = .error extractionErrorMsg
      ↔ (extractPageContent dom).content.length < 50)
    ∧ (50 ≤ (extractPageContent dom).content.length →
        scrapeNovel env url none
          = .ok (finalizeNovel env (extractPageContent dom).title
              (extractPageContent dom).content))
    ∧ (∀ st : CrawlSt,
        (scrapePost env (st, none)).1
          = if st.fullContent = [] ∨ st.fullContent.length < 50 then
              .error extractionErrorMsg
            else .ok (finalizeNovel env st.title st.fullContent)) := by
  have hs2 : scrapeNovel env url none
      = (if (extractPageContent dom).content = []
            ∨ (extractPageContent dom).content.length < 50 then
           .error extractionErrorMsg
         else .ok (finalizeNovel env (extractPageContent dom).title
             (extractPageContent dom).content)) := by
    show scrapeSingle env url = _
    unfold scrapeSingle
    rw [hf]
  refine ⟨?_, ?_, ?_⟩
  · rw [hs2]
    constructor
    · intro h
      by_cases hc : (extractPageContent dom).content = []
          ∨ (extractPageContent dom).content.length < 50
      · rcases hc with hc | hc
        · rw [hc]
          simp
        · exact hc
      · rw [if_neg hc] at h
        exact absurd h (by simp)
    · intro h50
      rw [if_pos (Or.inr h50)]
  · intro h50
    have hne : (extractPageContent dom).content ≠ [] := by
      intro hnil
      rw [hnil] at h50
      simp at h50
    have hc : ¬ ((extractPageContent dom).content = []
        ∨ (extractPageContent dom).content.length < 50) := by
      push_neg
      exact ⟨hne, h50⟩
    rw [hs2, if_neg hc]
  · intro st
    have hpost : scrapePost env (st, none)
        = (if st.fullContent = [] ∨ st.fullContent.length < 50 then
             ((Except.error extractionErrorMsg : Except ErrMsg ScrapedNovel),
              st.trace)
           else (Except.ok (finalizeNovel env st.title st.fullContent),
              st.trace)) := rfl
    rw [hpost]
    by_cases hc : st.fullContent = [] ∨ st.fullContent.length < 50
    · rw [if_pos hc, if_pos hc]
    · rw [if_neg hc, if_neg hc]

/-- C5 witness: a page whose only extractable text is 40 characters long
makes the scrape fail with the extraction error. -/
theorem c5_min_length_gate_witness :
    env40.fetchParsed "http://x.com/a".toList = .ok dom40
    ∧ (extractPageContent dom40).content.length = 40
    ∧ scrapeNovel env40 "http://x.com/a".toList none
        = .error extractionErrorMsg :=
  ⟨rfl, by decide,
   ((c5_min_length_gate env40 "http://x.com/a".toList dom40 rfl).1).mpr
     (by decide)⟩

/-- C6: in every mode, the list of URLs handed to the fetcher during one
scrape call has no duplicates: no URL is fetched twice, even on
self-referential pagination. -/
theorem c6_no_refetch (env : Env) (url : List Char) (mp : Option Int) :
    (scrapeTrace env url mp).Nodup := by
  cases mp with
  | none =>
    show ([url] : List (List Char)).Nodup
    simp
  | some m =>
    have h0 : scrapeTrace env url (some m)
        = (if m ≤ 0 then (scrapeSingle env url, [url])
           else scrapeMultiT env url m.toNat).2 := rfl
    by_cases hm : m ≤ 0
    · rw [h0, if_pos hm]
      simp
    · rw [h0, if_neg hm]
      have hmul : scrapeMultiT env url m.toNat
          = scrapePost env (crawlLoop env m.toNat url m.toNat
              ⟨some url, [], [], [], 0, []⟩) := rfl
      rw [hmul, scrapePost_trace]
      exact crawlLoop_trace_nodup env m.toNat url m.toNat _ (by simp) (by simp)

/-- C7: when the fetch of the current page throws mid-crawl, the error is
absorbed and the crawl returns the partial document exactly when the buffer
already holds more than 100 characters; with 100 characters or fewer the
original error propagates verbatim. -/
theorem c7_partial_failure (env : Env) (mp : Nat) (base : List Char)
    (fuel : Nat) (st : CrawlSt) (u : List Char) (e : ErrMsg)
    (hcu : st.currentUrl = some u) (hv : u ∉ st.visitedUrls)
    (hmp : st.pageCount < mp) (hf : env.fetchParsed u = .error e) :
    (100 < st.fullContent.length →
      (scrapePost env (crawlLoop env mp base (fuel + 1) st)).1
        = .ok (finalizeNovel env st.title st.fullContent))
    ∧ (st.fullContent.length ≤ 100 →
      (scrapePost env (crawlLoop env mp base (fuel + 1) st)).1 = .error e) := by
  rw [crawlLoop_error_step env mp base fuel st u e hcu hv hmp hf]
  constructor
  · intro h100
    have hne : st.fullContent ≠ [] := by
      intro hnil
      rw [hnil] at h100
      simp at h100
    rw [if_pos ⟨hne, h100⟩]
    refine scrapePost_ok env _ ?_
    show ¬ (st.fullContent = [] ∨ st.fullContent.length < 50)
    push_neg
    refine ⟨hne, by omega⟩
  · intro h100
    have hcond : ¬ (st.fullContent ≠ [] ∧ 100 < st.fullContent.length) := by
      intro hc
      exact absurd hc.2 (by omega)
    rw [if_neg hcond]
    rfl

/-- C7 witness: a failing second fetch over a 120-character buffer is
absorbed and the partial document is returned. -/
theorem c7_partial_failure_witness :
    (stBig.currentUrl = some "http://x.com/c?page=2".toList
      ∧ "http://x.com/c?page=2".toList ∉ stBig.visitedUrls
      ∧ stBig.pageCount < 5
      ∧ errEnv.fetchParsed "http://x.com/c?page=2".toList = .error "boom".toList
      ∧ 100 < stBig.fullContent.length)
    ∧ (scrapePost errEnv
        (crawlLoop errEnv 5 "http://x.com/c?page=1".toList 3 stBig)).1
        = .ok (finalizeNovel errEnv stBig.title stBig.fullContent) :=
  ⟨⟨rfl, by decide, by decide, rfl, by decide⟩,
   (c7_partial_failure errEnv 5 "http://x.com/c?page=1".toList 2 stBig
     "http://x.com/c?page=2".toList "boom".toList rfl (by decide) (by decide)
     rfl).1 (by decide)⟩

/-- C8: the chapter guard returns false whenever the parsed hostnames
differ, and true whenever the hostnames match and the paths are identical
(only the query differing or not); the two spec examples evaluate as
stated. -/
theorem c8_chapter_guard (url1 url2 : List Char) (u1 u2 : UrlM)
    (h1 : parseUrl url1 = some u1) (h2 : parseUrl url2 = some u2) :
    (u1.host ≠ u2.host → isSameChapter url1 url2 = false)
    ∧ (u1.host = u2.host → u1.path = u2.path → isSameChapter url1 url2 = true)
    ∧ isSameChapter "http://x.com/c/1?page=1".toList
        "http://x.com/c/1?page=2".toList = true
    ∧ isSameChapter "http://a.com/c/1".toList "http://b.com/c/1".toList
        = false := by
  have hred : isSameChapter url1 url2 = sameChapterCore u1 u2 := by
    unfold isSameChapter
    rw [h1, h2]
  refine ⟨?_, ?_, by decide, by decide⟩
  · intro hne
    rw [hred]
    simp [sameChapterCore, hne]
  · intro hh hp
    rw [hred]
    simp [sameChapterCore, hh, hp, ite_self]

/-- C8 witness: the guard theorem applied to the two parses of the spec's
same-path example. -/
theorem c8_chapter_guard_witness :
    parseUrl "http://x.com/c/1?page=1".toList = some u1c
    ∧ parseUrl "http://x.com/c/1?page=2".toList = some u2c
    ∧ u1c.host = u2c.host ∧ u1c.path = u2c.path
    ∧ isSameChapter "http://x.com/c/1?page=1".toList
        "http://x.com/c/1?page=2".toList = true :=
  ⟨by decide, by decide, rfl, rfl,
   (c8_chapter_guard "http://x.com/c/1?page=1".toList
     "http://x.com/c/1?page=2".toList u1c u2c (by decide) (by decide)).2.1
     rfl rfl⟩

/-- C9: title resolution is the first-non-empty cascade h1 text, then
document title text, then the og:title meta attribute, then the literal
fallback; and the og:title-only page extracts with title Foo. -/
theorem c9_title_cascade (d : Dom) :
    (h1Title d ≠ [] → resolveTitle d = h1Title d)
    ∧ (h1Title d = [] → docTitle d ≠ [] → resolveTitle d = docTitle d)
    ∧ (h1Title d = [] → docTitle d = [] → ogTitle d ≠ [] →
        resolveTitle d = ogTitle d)
    ∧ (h1Title d = [] → docTitle d = [] → ogTitle d = [] →
        resolveTitle d = "Untitled Novel".toList)
    ∧ (extractPageContent ogPage).title = "Foo".toList := by
  refine ⟨?_, ?_, ?_, ?_, by decide⟩
  · intro h
    simp [resolveTitle, jsOr, h]
  · intro h h2
    simp [resolveTitle, jsOr, h, h2]
  · intro h h2 h3
    simp [resolveTitle, jsOr, h, h2, h3]
  · intro h h2 h3
    simp [resolveTitle, jsOr, h, h2, h3]

/-- C9 witness: the cascade theorem applied to the og:title-only page. -/
theorem c9_title_cascade_witness :
    h1Title ogPage = [] ∧ docTitle ogPage = [] ∧ ogTitle ogPage ≠ []
    ∧ resolveTitle ogPage = ogTitle ogPage :=
  ⟨by decide, by decide, by decide,
   (c9_title_cascade ogPage).2.2.1 (by decide) (by decide) (by decide)⟩

/-- C10: `constructNextPageUrl` (total in this model, as the code's
catch-all try/catch makes it) returns, whenever it succeeds on a parseable
URL, a URL that parses back with the same scheme and the same hostname: the
function only rewrites the query string or the path, so a constructed
fallback next-page URL can never point at a different host than the current
page. -/
theorem c10_construct_preserves_host (url : List Char) (cp np : Nat)
    (out : List Char) (p : UrlM)
    (hcon : constructNextPageUrl url cp np = some out)
    (hp : parseUrl url = some p) :
    ∃ q, parseUrl out = some q ∧ q.scheme = p.scheme ∧ q.host = p.host :=
  construct_same_host url cp np out p hcon hp

/-- C10 witness: the preservation theorem applied to the page-parameter
increment on `http://x.com/c?page=1`. -/
theorem c10_construct_preserves_host_witness :
    constructNextPageUrl "http://x.com/c?page=1".toList 1 2
        = some "http://x.com/c?page=2".toList
    ∧ parseUrl "http://x.com/c?page=1".toList = some urlP
    ∧ ∃ q, parseUrl "http://x.com/c?page=2".toList = some q
        ∧ q.scheme = urlP.scheme ∧ q.host = urlP.host :=
  ⟨by decide, by decide,
   c10_construct_preserves_host "http://x.com/c?page=1".toList 1 2
     "http://x.com/c?page=2".toList urlP (by decide) (by decide)⟩

end Noveldrive
